import Mathlib

/-!
# dmesg: kernel ring buffer reader (`toys/lsb/dmesg.c`)

A shallow embedding of the two log backends of `dmesg.c` and of its line
formatter.

* Bytes are `Char`s (the byte `b` is `Char.ofNat b`); a buffer is a `List Char`.
* A C pointer into a buffer is an index; the bytes a pointer can see are the
  suffix `data.drop index`.  Every access outside the allocation makes the
  model return `none`.
* `legacy_mode` works in place on an allocation of `size + 1` bytes whose last
  byte is the NUL written by `data[size] = 0`.
* The library routines (`strchr`, `strstr`, `sscanf`, `printf`) are modelled
  after the C standard.
-/

namespace Dmesg

/-! ## Legacy backend: `legacy_mode` -/

/-- The byte that ends a C string. -/
def NUL : Char := Char.ofNat 0

/-- Model of `strchr(p, c)` for `c ≠ 0`, where `s` holds the bytes from `p` to the end of
the allocation.  `some (some k)`: the first `c` is at `p + k` and no NUL comes before
it.  `some none`: a NUL comes first (the C call returns a null pointer).  `none`: the
search ran off the allocation. -/
def strchr (c : Char) : List Char → Option (Option Nat)
  | [] => none
  | x :: xs =>
    if x = c then some (some 0)
    else if x = NUL then some none
    else (strchr c xs).map (fun r => r.map (· + 1))

/-- Line 56 of `dmesg.c`, `if (*from == '<' && (to = strchr(from, '>'))) from = ++to;`:
`s` holds the bytes from `from` on, the result is the number of bytes `from` advances. -/
def skipLevel (s : List Char) : Option Nat := do
  let c ← s.head?
  if c = '<' then
    match ← strchr '>' s with
    | some k => pure (k + 1)
    | none => pure 0
  else pure 0

/-- Lines 57-58, `if ((toys.optflags&FLAG_t) && *from == '[' && (to = strchr(from, ']')))`
`from = to+1+(to[1]==' ');`: the number of bytes `from` advances. -/
def skipTime (t : Bool) (s : List Char) : Option Nat :=
  if t then do
    let c ← s.head?
    if c = '[' then
      match ← strchr ']' s with
      | some k => do
        let c2 ← s[k + 1]?
        pure (k + 1 + (if c2 = ' ' then 1 else 0))
      | none => pure 0
    else pure 0
  else pure 0

/-- Lines 56-58, executed at the start of a line: the number of bytes `from` advances. -/
def skipMarkers (t : Bool) (s : List Char) : Option Nat := do
  let k1 ← skipLevel s
  let k2 ← skipTime t (s.drop k1)
  pure (k1 + k2)

/-- The buffer of `legacy_mode` with its two cursors: `to_` is `to - data`, `from_` is
`from - data`. -/
structure Buf where
  data : List Char
  to_ : Nat
  from_ : Nat
deriving DecidableEq, Repr

/-- The test `from == data || from[-1] == '\n'` of line 53. -/
def lineStartAt (data : List Char) (frm : Nat) : Option Bool :=
  if frm = 0 then some true else (data[frm - 1]?).map (fun c => decide (c = '\n'))

/-- One pass through the body of the `while` loop (lines 53-60): the test of line 53,
the skips of lines 56-58, and the copy `*(to++) = *(from++)` of line 60. -/
def legacy_step (t : Bool) (st : Buf) : Option Buf :=
  (lineStartAt st.data st.from_).bind fun lineStart =>
  (if lineStart then skipMarkers t (st.data.drop st.from_) else some 0).bind fun k =>
  (st.data[st.from_ + k]?).bind fun c =>
  if st.to_ < st.data.length then
    some { data := st.data.set st.to_ c, to_ := st.to_ + 1, from_ := st.from_ + k + 1 }
  else none

/-- The loop `while ((from - data) < size)`, run for at most `n` iterations. -/
def legacy_loop (t : Bool) (size : Nat) : Nat → Buf → Option Buf
  | 0, st => some st
  | n + 1, st =>
    if st.from_ < size then (legacy_step t st).bind (legacy_loop t size n)
    else some st

/-- Lines 46-61: the buffer filled by `klogctl` with the `size` bytes `bytes`, the
sentinel `data[size] = 0`, and the filter (skipped under `-r`, where `to = data+size`).
The bytes of the allocation behind the sentinel are left out, so that any access
behind it shows as `none`. -/
def legacy_filter (raw t : Bool) (bytes : List Char) : Option Buf :=
  let size := bytes.length
  let data := bytes ++ [NUL]
  if raw then some { data := data, to_ := size, from_ := 0 }
  else legacy_loop t size size { data := data, to_ := 0, from_ := 0 }

/-- The filtered region `data[0 .. to)`. -/
def Buf.result (st : Buf) : List Char := st.data.take st.to_

/-- Lines 65-68: the bytes written to standard output. -/
def legacy_write (st : Buf) : Option (List Char) :=
  if st.to_ ≠ 0 then do
    let last ← st.data[st.to_ - 1]?
    pure (st.data.take st.to_ ++ (if last ≠ '\n' then ['\n'] else []))
  else pure []

/-- The function `legacy_mode` after the bulk read returned `bytes`: what it writes. -/
def legacy_mode (raw t : Bool) (bytes : List Char) : Option (List Char) :=
  (legacy_filter raw t bytes).bind legacy_write

/-! ## Stream backend: the record decoder of `dmesg_main` -/

/-- The C string that starts at the first byte of `s`: the bytes before the first NUL. -/
def cstr (s : List Char) : List Char := s.takeWhile (fun c => c ≠ NUL)

/-- The predicate `isspace` of the C locale. -/
def isSpace (c : Char) : Bool :=
  c = ' ' ∨ c = '\t' ∨ c = '\n' ∨ c = Char.ofNat 11 ∨ c = Char.ofNat 12 ∨ c = '\r'

/-- Decimal digits. -/
def isDigit (c : Char) : Bool := '0' ≤ c ∧ c ≤ '9'

/-- Value of a string of decimal digits. -/
def digitsValue (ds : List Char) : Nat := ds.foldl (fun a c => 10 * a + (c.toNat - 48)) 0

/-- Outcome of one `scanf` directive: the value and the remaining input, a matching
failure, or an input failure (end of input). -/
inductive Scan (α : Type) where
  | ok (v : α) (rest : List Char)
  | mismatch
  | eof
deriving Repr

/-- The conversion `%u` (also `%llu`) on a C string: white space is skipped, a sign is
optional, at least one digit is required.  The value is the sign and the magnitude. -/
def scanUnsigned (s : List Char) : Scan (Bool × Nat) :=
  match s.dropWhile isSpace with
  | [] => .eof
  | c :: r =>
    let neg := decide (c = '-')
    let s2 := if c = '-' ∨ c = '+' then r else c :: r
    let ds := s2.takeWhile isDigit
    if ds = [] then .mismatch else .ok (neg, digitsValue ds) (s2.dropWhile isDigit)

/-- A literal character of the format: it has to be the next input byte. -/
def scanLit (c : Char) : List Char → Option (List Char)
  | [] => none
  | x :: r => if x = c then some r else none

/-- The directive `%*[^;]`: a non-empty run of bytes other than `;`. -/
def scanNotSemi (s : List Char) : Option (List Char) :=
  if s.takeWhile (fun c => c ≠ ';') = [] then none else some (s.dropWhile (fun c => c ≠ ';'))

/-- What an unsigned conversion stores in an object of `bits` bits, the way the C library
of the program does it (C leaves a value out of range undefined): the numeral is
converted on 64 bits as by `strtoull`, where a numeral of `2 ^ 64` or more gives
`2 ^ 64 - 1` and a minus sign negates modulo `2 ^ 64`; the object keeps the low `bits`
bits. -/
def store (bits : Nat) (v : Bool × Nat) : Nat :=
  (if 2 ^ 64 ≤ v.2 then 2 ^ 64 - 1
   else if v.1 then (2 ^ 64 - v.2) % 2 ^ 64 else v.2) % 2 ^ bits

/-- The effect of `sscanf(msg, "%u,%*u,%llu,%*[^;];%n", &facpri, &time_us, &pos)`: the
return value and the objects written (`none`: not written). -/
structure ScanResult where
  ret : Int
  facpri : Option Nat
  time_us : Option Nat
  pos : Option Nat
deriving DecidableEq, Repr

/-- The directive `%*u`: a conversion whose value is dropped. -/
def skipField (s : List Char) : Option (List Char) :=
  match scanUnsigned s with
  | .ok _ r => some r
  | _ => none

/-- A conversion `%u` or `%llu` after the first one: any failure ends the scan. -/
def scanField (s : List Char) : Option ((Bool × Nat) × List Char) :=
  match scanUnsigned s with
  | .ok v r => some (v, r)
  | _ => none

/-- The call `sscanf(msg, "%u,%*u,%llu,%*[^;];%n", ...)` on the C string `str`.  The return
value counts the assignments done before the first failure (`-1` for an input failure
before the first conversion); `%*u` and `%n` do not count. -/
def sscanf_kmsg (str : List Char) : ScanResult :=
  match scanUnsigned str with
  | .eof => { ret := -1, facpri := none, time_us := none, pos := none }
  | .mismatch => { ret := 0, facpri := none, time_us := none, pos := none }
  | .ok fp r1 =>
    match (((scanLit ',' r1).bind skipField).bind (scanLit ',')).bind scanField with
    | none => { ret := 1, facpri := some (store 32 fp), time_us := none, pos := none }
    | some (ts, r5) =>
      { ret := 2, facpri := some (store 32 fp), time_us := some (store 64 ts),
        pos := (((scanLit ',' r5).bind scanNotSemi).bind (scanLit ';')).map
          (fun r => str.length - r.length) }

/-- A decoded record: `facpri` is the 32-bit pattern of the `int`, `time_us` the
`unsigned long long`, `text` the C string at `text`, `subsystem` the `int`. -/
structure LogRecord where
  facpri : Nat
  time_us : Nat
  text : List Char
  subsystem : Nat
deriving DecidableEq, Repr

/-- Model of `strstr(text, needle)` on a C string: offset of the first occurrence. -/
def strstr (needle : List Char) : List Char → Option Nat
  | [] => if needle = [] then some 0 else none
  | x :: xs =>
    if needle.isPrefixOf (x :: xs) then some 0 else (strstr needle xs).map (· + 1)

/-- Line 126-127: `p = strstr(text, ": "); subsystem = p ? (p - text) : 0;`. -/
def subsystemOf (text : List Char) : Nat :=
  match strstr [':', ' '] text with
  | some k => k
  | none => 0

/-- Lines 122-123: `text = msg + pos; if ((p = strchr(text, '\n'))) *p = 0;` on the
buffer `buf` (the bytes read and the NUL of line 116); the result is the C string then
found at `text`. -/
def textAt (buf : List Char) (pos : Nat) : Option (List Char) :=
  match strchr '\n' (buf.drop pos) with
  | none => none
  | some (some k) => some ((buf.drop pos).take k)
  | some none => some (cstr (buf.drop pos))

/-- What lines 116-127 make of the bytes of one read. -/
inductive Decoded where
  | discarded
  | record (r : LogRecord)
  | posUnset (facpri time_us : Nat)
  | fault
deriving DecidableEq, Repr

/-- Lines 116-127 on the `len` bytes `msg` of one read, held in `char msg[8192]`: `fault`
is an access outside `msg`, as the write `msg[len] = 0` of line 116 when `len` is 8192;
`discarded` is the `continue` of line 119; `posUnset` is reached when `sscanf` returned
2 without having written `pos`, which line 122 then reads. -/
def decode (msg : List Char) : Decoded :=
  if 8192 ≤ msg.length then .fault
  else
    let buf := msg ++ [NUL]
    let r := sscanf_kmsg (cstr buf)
    if r.ret ≠ 2 then .discarded
    else match r.facpri, r.time_us, r.pos with
      | some fp, some ts, some pos =>
        match textAt buf pos with
        | some text => .record { facpri := fp, time_us := ts, text := text,
                                 subsystem := subsystemOf text }
        | none => .fault
      | some fp, some ts, none => .posUnset fp ts
      | _, _, _ => .fault

/-! ## Line formatter (lines 129-152) -/

/-- The option flags and `TT.color`. -/
structure Opts where
  raw : Bool
  t : Bool
  color : Bool
deriving DecidableEq, Repr

/-- A piece of output: bytes written by `printf`/`puts`/`xputc`, or the escape sequence
written by `color(c)`. -/
inductive Chunk where
  | lit (bytes : List Char)
  | esc (code : Nat)
deriving DecidableEq, Repr

/-- Decimal digits of a natural number, as `printf` writes them. -/
def decimal (n : Nat) : List Char := Nat.toDigits 10 n

/-- The escape character `\033`. -/
def ESC : Char := Char.ofNat 27

/-- The bytes of a chunk; `color(c)` prints `"\033[%dm"`. -/
def Chunk.bytes : Chunk → List Char
  | .lit b => b
  | .esc c => ESC :: '[' :: (decimal c ++ ['m'])

/-- The bytes of a sequence of chunks. -/
def render (cs : List Chunk) : List Char := (cs.map Chunk.bytes).flatten

/-- Line 72-74: `if (TT.color) printf("\033[%dm", c);`. -/
def color (enabled : Bool) (c : Nat) : List Chunk := if enabled then [.esc c] else []

/-- The value of a `bits`-bit pattern read as a signed integer. -/
def toSigned (bits : Nat) (x : Nat) : Int :=
  if x % 2 ^ bits < 2 ^ (bits - 1) then (x % 2 ^ bits : Nat) else (x % 2 ^ bits : Nat) - 2 ^ bits

/-- The conversions `%d`, `%5lld` and `%06lld` of `printf`: a signed decimal padded on the
left to `width`, with zeros after the sign when `zero` is set, with spaces otherwise. -/
def fmtSigned (width : Nat) (zero : Bool) (v : Int) : List Char :=
  let ds := decimal v.natAbs
  if v < 0 then
    if zero then '-' :: (List.replicate (width - (ds.length + 1)) '0' ++ ds)
    else List.replicate (width - (ds.length + 1)) ' ' ++ '-' :: ds
  else List.replicate (width - ds.length) (if zero then '0' else ' ') ++ ds

/-- Line 131: `if (toys.optflags&FLAG_r) printf("<%d>", facpri);`. -/
def rawPrefix (o : Opts) (facpri : Nat) : List Chunk :=
  if o.raw then [.lit ('<' :: (fmtSigned 0 false (toSigned 32 facpri) ++ ['>']))] else []

/-- The bytes of `printf("[%5lld.%06lld] ", time_us/1000000, time_us%1000000)`; the two
`unsigned long long` arguments are read as `long long`. -/
def timestampBytes (time_us : Nat) : List Char :=
  '[' :: (fmtSigned 5 false (toSigned 64 (time_us / 1000000)) ++
    '.' :: (fmtSigned 6 true (toSigned 64 (time_us % 1000000)) ++ [']', ' ']))

/-- Lines 133-137: the timestamp field. -/
def timestampField (o : Opts) (time_us : Nat) : List Chunk :=
  if !o.t then color o.color 32 ++ [.lit (timestampBytes time_us)] ++ color o.color 0 else []

/-- Lines 140-145: the subsystem prefix. -/
def subsystemField (o : Opts) (r : LogRecord) : List Chunk :=
  if r.subsystem ≠ 0 then
    color o.color 33 ++ [.lit (r.text.take r.subsystem)] ++ color o.color 0
  else []

/-- The pointer `text` after line 143. -/
def restText (r : LogRecord) : List Char :=
  if r.subsystem ≠ 0 then r.text.drop r.subsystem else r.text

/-- Lines 146-152: the remaining text, in red for errors or worse. -/
def restField (o : Opts) (facpri : Nat) (text : List Char) : List Chunk :=
  if !decide ((facpri &&& 7) ≤ 3) then [.lit (text ++ ['\n'])]
  else color o.color 31 ++ [.lit text] ++ color o.color 0 ++ [.lit ['\n']]

/-- Lines 129-152: the chunks written for one record. -/
def format_line (o : Opts) (r : LogRecord) : List Chunk :=
  rawPrefix o r.facpri ++ timestampField o r.time_us ++ subsystemField o r ++
    restField o r.facpri (restText r)

/-! ## The read loop of `dmesg_main` (lines 97-153) -/

/-- What one call of `read(fd, msg, sizeof(msg))` does: it fills `msg` with `len` bytes
(a list of length `len`), or returns -1 with `errno`. -/
inductive ReadResult where
  | bytes (msg : List Char)
  | error (errno : Nat)
deriving DecidableEq, Repr

/-- The value of `errno` for a read while the buffer moves. -/
def EPIPE : Nat := 32

/-- The value of `errno` for a read on a kernel without `/dev/kmsg` records. -/
def EINVAL : Nat := 22

/-- How a run of the loop ends: `returned` is the `break` of line 114 followed by the
normal return, `legacy` the `return legacy_mode()` of line 112, `waiting` a read that
has not returned yet, `overflow` an access outside `msg` (the write `msg[len] = 0` when
`len` is 8192), `posUnset` the read of the unwritten `pos`, `legacyFault` an access
outside the legacy buffer. -/
inductive Stop where
  | returned
  | legacy
  | waiting
  | overflow
  | posUnset
  | legacyFault
deriving DecidableEq, Repr

/-- A run: the chunks written, in the order in which the program makes the calls that
write them, the number of `read` calls, the number of `legacy_mode` calls, and how it
ended.  The lines of records are written through the buffer of `stdout` and the block of
`legacy_mode` by `xwrite`; `dmesg.c` does not flush between them, so the order of the
calls is not always the order of the bytes on the descriptor. -/
structure Run where
  out : List Chunk
  reads : Nat
  legacyCalls : Nat
  stop : Stop
deriving DecidableEq, Repr

/-- A run that made one more `read` and wrote `cs` before the rest `r` of the run. -/
def Run.after (cs : List Chunk) (r : Run) : Run :=
  { r with out := cs ++ r.out, reads := r.reads + 1 }

/-- The loop of lines 97-153, driven by the results of the successive `read` calls;
`klog` is what the bulk read of `legacy_mode` returns. -/
def dmesg_main (o : Opts) (klog : List Char) : List ReadResult → Run
  | [] => { out := [], reads := 0, legacyCalls := 0, stop := .waiting }
  | .error e :: rest =>
    if e = EPIPE then (dmesg_main o klog rest).after []
    else if e = EINVAL then
      match legacy_mode o.raw o.t klog with
      | some w => { out := [.lit w], reads := 1, legacyCalls := 1, stop := .legacy }
      | none => { out := [], reads := 1, legacyCalls := 1, stop := .legacyFault }
    else { out := [], reads := 1, legacyCalls := 0, stop := .returned }
  | .bytes msg :: rest =>
    if msg.length = 0 then { out := [], reads := 1, legacyCalls := 0, stop := .returned }
    else if 8192 ≤ msg.length then { out := [], reads := 1, legacyCalls := 0, stop := .overflow }
    else match decode msg with
      | .discarded => (dmesg_main o klog rest).after []
      | .record r => (dmesg_main o klog rest).after (format_line o r)
      | .posUnset _ _ => { out := [], reads := 1, legacyCalls := 0, stop := .posUnset }
      | .fault => { out := [], reads := 1, legacyCalls := 0, stop := .overflow }

/-! ## Reference functions used in the statements and proofs -/

/-- The filter loop as a function of the unread bytes `s` (the suffix `data.drop from`,
sentinel included) and of whether `from` is at a line start: the bytes the loop copies
from there on.  `legacy_loop_sim` shows that the in-place loop computes it. -/
def filterL (t : Bool) (lineStart : Bool) (s : List Char) : List Char :=
  if s.length ≤ 1 then []
  else
    match hs : s.drop (if lineStart then (skipMarkers t s).getD 0 else 0) with
    | [] => []
    | c :: s' => c :: filterL t (decide (c = '\n')) s'
termination_by s.length
decreasing_by
  have h := congrArg List.length hs
  simp only [List.length_drop, List.length_cons] at h
  omega

/-- Whether the cursor `from` of a buffer is at the start of a line (line 53). -/
def Buf.lineStart (st : Buf) : Bool :=
  decide (st.from_ = 0 ∨ st.data[st.from_ - 1]? = some '\n')

/-- One line of the legacy buffer with its priority marker: `<N>body\n`. -/
def markedLine (l : List Char × List Char) : List Char :=
  '<' :: (l.1 ++ '>' :: (l.2 ++ ['\n']))

/-- The time marker of a line and the blanks after it: `[T]` then `sp`, or nothing. -/
def stampBytes : Option (List Char × List Char) → List Char
  | some (T, sp) => '[' :: (T ++ ']' :: sp)
  | none => []

/-- One line of the legacy buffer with priority marker and optional time marker:
`<N>`, then `[T]` and `sp` if present, then `body\n`. -/
def stampedLine (l : List Char × Option (List Char × List Char) × List Char) : List Char :=
  '<' :: (l.1 ++ '>' :: (stampBytes l.2.1 ++ (l.2.2 ++ ['\n'])))

/-- What the second claim asks of a time marker `[T]` ++ `sp` before `body`: `T` has no
`]` and no NUL, `sp` is one space, or empty before a `body` that does not start with a
space; a line without time marker has a `body` that does not start with `[`. -/
def StampOk : Option (List Char × List Char) → List Char → Prop
  | some (T, sp), body =>
    ']' ∉ T ∧ NUL ∉ T ∧ (sp = [' '] ∨ (sp = [] ∧ body.head? ≠ some ' '))
  | none, body => body.head? ≠ some '['

instance StampOk.decide : (stamp : Option (List Char × List Char)) → (body : List Char) →
    Decidable (StampOk stamp body)
  | some (T, sp), body =>
    inferInstanceAs
      (Decidable (']' ∉ T ∧ NUL ∉ T ∧ (sp = [' '] ∨ (sp = [] ∧ body.head? ≠ some ' '))))
  | none, body => inferInstanceAs (Decidable (body.head? ≠ some '['))

/-- What the second claim asks of a line: `N` has no `>` and no NUL, `body` no newline,
and the time marker is as `StampOk` says. -/
def StampedOk (l : List Char × Option (List Char × List Char) × List Char) : Prop :=
  '>' ∉ l.1 ∧ NUL ∉ l.1 ∧ '\n' ∉ l.2.2 ∧ StampOk l.2.1 l.2.2

instance StampedOk.decide (l : List Char × Option (List Char × List Char) × List Char) :
    Decidable (StampedOk l) :=
  inferInstanceAs (Decidable ('>' ∉ l.1 ∧ NUL ∉ l.1 ∧ '\n' ∉ l.2.2 ∧ StampOk l.2.1 l.2.2))

/-- The part of a record before its text: `fp,seq,ts,flags;`. -/
def kmsgHeader (fp seq ts flags : List Char) : List Char :=
  fp ++ ',' :: (seq ++ ',' :: (ts ++ ',' :: (flags ++ [';'])))

/-- A non-empty string of decimal digits. -/
def IsNumeral (ds : List Char) : Prop := ds ≠ [] ∧ ∀ c ∈ ds, isDigit c = true

instance IsNumeral.decide (ds : List Char) : Decidable (IsNumeral ds) :=
  inferInstanceAs (Decidable (ds ≠ [] ∧ ∀ c ∈ ds, isDigit c = true))

/-- A field padded on the left with `c` to a minimum width `w`. -/
def padLeft (w : Nat) (c : Char) (l : List Char) : List Char :=
  List.replicate (w - l.length) c ++ l

/-- Reading a printed field back as an integer: leading blanks are dropped, the rest is
read as decimal digits. -/
def readDecimal (s : List Char) : Nat := digitsValue (s.dropWhile (fun c => c = ' '))

/-- The seconds of a timestamp as the claim describes them: the decimal of
`ts div 1000000`, padded with blanks to a minimum width of 5. -/
def secondsField (ts : Nat) : List Char := padLeft 5 ' ' (decimal (ts / 1000000))

/-- The microseconds of a timestamp as the claim describes them: the decimal of
`ts mod 1000000`, padded with zeros to 6 digits. -/
def microsField (ts : Nat) : List Char := padLeft 6 '0' (decimal (ts % 1000000))

/-- Whether a chunk is text, as opposed to an escape sequence written by `color`. -/
def Chunk.isLit : Chunk → Bool
  | .lit _ => true
  | .esc _ => false

/-- The block the output contract asks for: `R` itself when it is empty or ends in a
newline, else `R` and one newline. -/
def terminated (R : List Char) : List Char :=
  if R = [] then [] else if R.getLast? = some '\n' then R else R ++ ['\n']

/-- Whether no line of `s` starts with `<`, nor with `[` when `t` is set, so that the
filter finds no marker to strip; `lineStart` tells whether `s` begins a line. -/
def unmarked (t : Bool) : Bool → List Char → Bool
  | _, [] => true
  | lineStart, c :: s =>
    !(lineStart && (decide (c = '<') || (t && decide (c = '['))))
      && unmarked t (decide (c = '\n')) s

/-- The length of the marker that `s` starts with, in the words of the design: the byte
`o`, then bytes other than `c` and NUL, then the closing byte `c`; 0 when `s` does not
start with such a marker. -/
def leadingMarker (o c : Char) : List Char → Nat
  | [] => 0
  | x :: r =>
    if x = o ∧ (r.dropWhile (fun y => decide (y ≠ c ∧ y ≠ NUL))).head? = some c then
      (r.takeWhile (fun y => decide (y ≠ c ∧ y ≠ NUL))).length + 2
    else 0

/-- The number of bytes the design asks to skip at the start of a line `s`: the priority
marker `<`..`>` if `s` starts with one and, when timestamps are suppressed, the bracketed
marker `[`..`]` that follows immediately, with one space after it if there is one. -/
def markerLen (t : Bool) (s : List Char) : Nat :=
  leadingMarker '<' '>' s
    + (if t then leadingMarker '[' ']' (s.drop (leadingMarker '<' '>' s)) else 0)
    + (if t ∧ leadingMarker '[' ']' (s.drop (leadingMarker '<' '>' s)) ≠ 0 ∧
          (s.drop (leadingMarker '<' '>' s
            + leadingMarker '[' ']' (s.drop (leadingMarker '<' '>' s)))).head? = some ' '
       then 1 else 0)

/-- The bytes the design keeps: scanning `s` in at most `n` steps, the markers found at
the start of the buffer and after every newline kept are skipped, every other byte is
kept. -/
def stripFrom (t : Bool) : Nat → Bool → List Char → List Char
  | 0, _, _ => []
  | n + 1, lineStart, s =>
    match s.drop (if lineStart then markerLen t s else 0) with
    | [] => []
    | c :: s' => c :: stripFrom t n (decide (c = '\n')) s'

/-- The bytes the design skips: the markers that `stripFrom` steps over. -/
def skippedFrom (t : Bool) : Nat → Bool → List Char → List Char
  | 0, _, _ => []
  | n + 1, lineStart, s =>
    s.take (if lineStart then markerLen t s else 0) ++
      (match s.drop (if lineStart then markerLen t s else 0) with
       | [] => []
       | c :: s' => skippedFrom t n (decide (c = '\n')) s')

/-- The buffer without its leading markers, as the design describes the filter. -/
def stripMarkers (t : Bool) (bytes : List Char) : List Char :=
  stripFrom t bytes.length true bytes

/-- The bytes of the leading markers of the buffer. -/
def skippedMarkers (t : Bool) (bytes : List Char) : List Char :=
  skippedFrom t bytes.length true bytes

/-- A read after which nothing is written and the loop goes on: a failure with `EPIPE`,
or a record that line 119 discards. -/
def silent : ReadResult → Bool
  | .error e => decide (e = EPIPE)
  | .bytes msg => decide (msg.length ≠ 0 ∧ msg.length < 8192 ∧ decode msg = .discarded)

/-- A read after which the loop goes on to the next read: a failure with `EPIPE`, or a
record of 1 to 8191 bytes that is discarded or decoded. -/
def continues : ReadResult → Bool
  | .error e => decide (e = EPIPE)
  | .bytes msg =>
    decide (msg.length ≠ 0 ∧ msg.length < 8192) &&
      (match decode msg with
       | .discarded => true
       | .record _ => true
       | _ => false)

/-- What the loop writes for one read: the line of the record decoded from it, and
nothing for any other read. -/
def linesOf (o : Opts) : ReadResult → List Chunk
  | .bytes msg =>
    (match decode msg with
     | .record r => format_line o r
     | _ => [])
  | .error _ => []

/-- The value of `errno` for an input/output error. -/
def EIO_ : Nat := 5

/-- The value of `errno` for a non-blocking read that finds no data. -/
def EAGAIN : Nat := 11

/-! ## Lemmas on `strchr` and `skipMarkers` -/

theorem strchr_append (c : Char) (pre rest : List Char) (h1 : c ∉ pre) (h2 : NUL ∉ pre) :
    strchr c (pre ++ c :: rest) = some (some pre.length) := by
  induction pre with
  | nil => simp [strchr]
  | cons x xs ih =>
    simp only [List.mem_cons, not_or] at h1 h2
    have hx : ¬ x = c := fun h => h1.1 h.symm
    have hn : ¬ x = NUL := fun h => h2.1 h.symm
    simp [strchr, hx, hn, ih h1.2 h2.2]

theorem strchr_total (c : Char) (hc : c ≠ NUL) :
    ∀ s : List Char, NUL ∈ s →
      ∃ r, strchr c s = some r ∧ ∀ k, r = some k → k < s.length ∧ NUL ∈ s.drop (k + 1) := by
  intro s
  induction s with
  | nil => intro h; simp at h
  | cons x xs ih =>
    intro h
    by_cases hx : x = c
    · refine ⟨some 0, by simp [strchr, hx], ?_⟩
      intro k hk
      have hk0 : k = 0 := by simpa using hk.symm
      subst hk0
      have : NUL ∈ xs := by
        rcases List.mem_cons.1 h with h | h
        · exact absurd (h.trans hx).symm hc
        · exact h
      simpa using this
    · by_cases hn : x = NUL
      · exact ⟨none, by simp [strchr, hn, Ne.symm hc], by simp⟩
      · have hxs : NUL ∈ xs := by
          rcases List.mem_cons.1 h with h | h
          · exact absurd h.symm hn
          · exact h
        obtain ⟨r, hr, hk⟩ := ih hxs
        refine ⟨r.map (· + 1), by simp [strchr, hx, hn, hr], ?_⟩
        intro k hk'
        cases r with
        | none => simp at hk'
        | some j =>
          have : k = j + 1 := by simpa using hk'.symm
          subst this
          have := hk j rfl
          simpa using this

theorem skipLevel_total (s : List Char) (h : NUL ∈ s) :
    ∃ k, skipLevel s = some k ∧ k < s.length ∧ NUL ∈ s.drop k := by
  cases s with
  | nil => simp at h
  | cons x xs =>
    by_cases hx : x = '<'
    · subst hx
      obtain ⟨r, hr, hk⟩ := strchr_total '>' (by decide) ('<' :: xs) h
      cases r with
      | none => exact ⟨0, by simp [skipLevel, hr], by simp, by simpa using h⟩
      | some k =>
        obtain ⟨h1, h2⟩ := hk k rfl
        have hlt : k + 1 < ('<' :: xs).length := by
          by_contra hc
          rw [List.drop_eq_nil_of_le (by omega)] at h2
          simp at h2
        exact ⟨k + 1, by simp [skipLevel, hr], hlt, h2⟩
    · exact ⟨0, by simp [skipLevel, hx], by simp, by simpa using h⟩

theorem skipTime_total (t : Bool) (s : List Char) (h : NUL ∈ s) :
    ∃ k, skipTime t s = some k ∧ k < s.length ∧ NUL ∈ s.drop k := by
  have h0 : 0 < s.length ∧ NUL ∈ s.drop 0 := by
    refine ⟨List.length_pos_of_mem h, by simpa using h⟩
  cases t with
  | false => exact ⟨0, by simp [skipTime], h0.1, h0.2⟩
  | true =>
    cases s with
    | nil => simp at h
    | cons x xs =>
      by_cases hx : x = '['
      · subst hx
        obtain ⟨r, hr, hk⟩ := strchr_total ']' (by decide) ('[' :: xs) h
        cases r with
        | none => exact ⟨0, by simp [skipTime, hr], h0.1, h0.2⟩
        | some k =>
          obtain ⟨h1, h2⟩ := hk k rfl
          simp only [List.drop_succ_cons] at h2
          cases hd : xs.drop k with
          | nil => rw [hd] at h2; simp at h2
          | cons c2 rest =>
            have hget : xs[k]? = some c2 := by
              rw [← List.head?_drop, hd]; rfl
            have hk' : k < xs.length := by
              by_contra hc
              rw [List.drop_eq_nil_of_le (by omega)] at hd
              simp at hd
            have hrest : List.drop (k + 1) xs = rest := by
              rw [← List.drop_drop 1 k, hd]; rfl
            rw [hd] at h2
            by_cases hsp : c2 = ' '
            · have h3 : NUL ∈ rest := by
                rcases List.mem_cons.1 h2 with h2 | h2
                · rw [hsp] at h2; exact absurd h2 (by decide)
                · exact h2
              have hlt2 : k + 1 < xs.length := by
                by_contra hc
                rw [List.drop_eq_nil_of_le (by omega)] at hrest
                rw [← hrest] at h3
                simp at h3
              refine ⟨k + 1 + 1, by simp [skipTime, hr, hget, hsp], ?_, ?_⟩
              · simp only [List.length_cons]; omega
              · simpa [hrest] using h3
            · refine ⟨k + 1, by simp [skipTime, hr, hget, hsp], ?_, ?_⟩
              · simp only [List.length_cons]; omega
              · simpa [hd] using h2
      · exact ⟨0, by simp [skipTime, hx], h0.1, h0.2⟩

theorem skipMarkers_total (t : Bool) (s : List Char) (h : NUL ∈ s) :
    ∃ k, skipMarkers t s = some k ∧ k < s.length ∧ NUL ∈ s.drop k := by
  obtain ⟨k1, e1, l1, m1⟩ := skipLevel_total s h
  obtain ⟨k2, e2, l2, m2⟩ := skipTime_total t (s.drop k1) m1
  refine ⟨k1 + k2, by simp [skipMarkers, e1, e2], ?_, ?_⟩
  · simp only [List.length_drop] at l2
    omega
  · simpa [List.drop_drop] using m2

/-! ## The in-place loop computes `filterL` -/

theorem filterL_done (t ls : Bool) (s : List Char) (h : s.length ≤ 1) : filterL t ls s = [] := by
  rw [filterL]; simp [h]

theorem filterL_step (t ls : Bool) (s s' : List Char) (c : Char) (h : 1 < s.length)
    (hs : s.drop (if ls then (skipMarkers t s).getD 0 else 0) = c :: s') :
    filterL t ls s = c :: filterL t (decide (c = '\n')) s' := by
  rw [filterL]
  simp only [show ¬ s.length ≤ 1 by omega, if_false]
  split
  · rename_i h'; rw [hs] at h'; simp at h'
  · rename_i c' s'' h'
    rw [hs] at h'
    simp only [List.cons.injEq] at h'
    rw [h'.1, h'.2]

theorem take_set_succ (l : List Char) (n : Nat) (c : Char) (h : n < l.length) :
    (l.set n c).take (n + 1) = l.take n ++ [c] := by
  rw [List.set_eq_take_append_cons_drop, if_pos h]
  have hl : (l.take n).length = n := by simp; omega
  have := @List.take_append _ (l.take n) (c :: l.drop (n + 1)) 1
  rw [hl] at this
  rw [this]; simp

theorem sentinel_mem (data : List Char) (size i : Nat) (h : data[size]? = some NUL)
    (hi : i ≤ size) : NUL ∈ data.drop i := by
  rw [List.mem_iff_getElem?]
  refine ⟨size - i, ?_⟩
  rw [List.getElem?_drop, ← h]
  congr 1; omega

theorem legacy_step_spec (t : Bool) (size : Nat) (st : Buf)
    (hlen : st.data.length = size + 1) (hN : st.data[size]? = some NUL)
    (hto : st.to_ ≤ st.from_) (hlt : st.from_ < size) :
    ∃ k c, (if st.lineStart then (skipMarkers t (st.data.drop st.from_)).getD 0 else 0) = k ∧
      st.from_ + k ≤ size ∧ st.data[st.from_ + k]? = some c ∧
      legacy_step t st = some ⟨st.data.set st.to_ c, st.to_ + 1, st.from_ + k + 1⟩ := by
  have hls : lineStartAt st.data st.from_ = some st.lineStart := by
    by_cases h0 : st.from_ = 0
    · simp [lineStartAt, Buf.lineStart, h0]
    · have hb : st.from_ - 1 < st.data.length := by omega
      simp [lineStartAt, Buf.lineStart, h0, List.getElem?_eq_getElem hb]
  have hmem : NUL ∈ st.data.drop st.from_ := sentinel_mem _ size _ hN (by omega)
  obtain ⟨k0, hk0, hk0lt, _⟩ := skipMarkers_total t _ hmem
  have hkk : ∃ k, (if st.lineStart then skipMarkers t (st.data.drop st.from_) else some 0) = some k ∧
      (if st.lineStart then (skipMarkers t (st.data.drop st.from_)).getD 0 else 0) = k ∧
      st.from_ + k ≤ size := by
    cases hl : st.lineStart with
    | true =>
      refine ⟨k0, by simp [hk0], by simp [hk0], ?_⟩
      simp only [List.length_drop] at hk0lt; omega
    | false => exact ⟨0, by simp, by simp, by omega⟩
  obtain ⟨k, hk1, hk2, hk3⟩ := hkk
  have hb : st.from_ + k < st.data.length := by omega
  refine ⟨k, st.data[st.from_ + k], hk2, hk3, List.getElem?_eq_getElem hb, ?_⟩
  unfold legacy_step
  rw [hls, Option.some_bind, hk1, Option.some_bind, List.getElem?_eq_getElem hb,
    Option.some_bind, if_pos (by omega)]

theorem legacy_loop_sim (t : Bool) (size : Nat) :
    ∀ (n : Nat) (st : Buf), st.data.length = size + 1 → st.data[size]? = some NUL →
      st.to_ ≤ st.from_ → st.to_ ≤ size → st.from_ ≤ size + 1 → size ≤ st.from_ + n →
      ∃ st', legacy_loop t size n st = some st' ∧ size ≤ st'.from_ ∧ st'.from_ ≤ size + 1 ∧
        st'.to_ ≤ st'.from_ ∧ st'.to_ ≤ size ∧ st'.data.length = size + 1 ∧
        st'.data[size]? = some NUL ∧
        st'.data.take st'.to_
          = st.data.take st.to_ ++ filterL t st.lineStart (st.data.drop st.from_) := by
  intro n
  induction n with
  | zero =>
    intro st hlen hN hto hto' hfr hfuel
    refine ⟨st, rfl, by omega, hfr, hto, hto', hlen, hN, ?_⟩
    rw [filterL_done _ _ _ (by simp only [List.length_drop]; omega)]
    simp
  | succ n ih =>
    intro st hlen hN hto hto' hfr hfuel
    by_cases hlt : st.from_ < size
    · obtain ⟨k, c, hk, hk3, hc, hstep⟩ := legacy_step_spec t size st hlen hN hto hlt
      have hset : (st.data.set st.to_ c)[size]? = some NUL := by
        rw [List.getElem?_set_ne (by omega)]; exact hN
      obtain ⟨st', h1, h2, h3, h4, h5, h6, h7, h8⟩ :=
        ih ⟨st.data.set st.to_ c, st.to_ + 1, st.from_ + k + 1⟩
          (by simp [hlen]) hset (by simp only; omega) (by simp only; omega)
          (by simp only; omega) (by simp only; omega)
      refine ⟨st', ?_, h2, h3, h4, h5, h6, h7, ?_⟩
      · simp only [legacy_loop, if_pos hlt, hstep, Option.some_bind]
        exact h1
      · rw [h8]
        simp only
        rw [take_set_succ _ _ _ (by omega), List.drop_set_of_lt _ _ (by omega)]
        have hls' : Buf.lineStart ⟨st.data.set st.to_ c, st.to_ + 1, st.from_ + k + 1⟩
            = decide (c = '\n') := by
          have : (st.data.set st.to_ c)[st.from_ + k]? = some c := by
            rw [List.getElem?_set]
            split
            · rw [if_pos (by omega)]
            · exact hc
          simp [Buf.lineStart, this]
        rw [hls']
        have hdrop : (st.data.drop st.from_).drop
            (if st.lineStart then (skipMarkers t (st.data.drop st.from_)).getD 0 else 0)
            = c :: st.data.drop (st.from_ + k + 1) := by
          rw [hk, List.drop_drop]
          have hb : st.from_ + k < st.data.length := by omega
          rw [List.drop_eq_getElem_cons hb]
          congr 1
          have := List.getElem?_eq_getElem hb
          rw [hc] at this
          exact (Option.some.inj this).symm
        rw [filterL_step t _ _ _ c (by simp only [List.length_drop]; omega) hdrop]
        simp
    · refine ⟨st, by simp [legacy_loop, hlt], by omega, hfr, hto, hto', hlen, hN, ?_⟩
      rw [filterL_done _ _ _ (by simp only [List.length_drop]; omega)]
      simp

theorem legacy_filter_eq (t : Bool) (bytes : List Char) :
    ∃ st, legacy_filter false t bytes = some st ∧
      st.result = filterL t true (bytes ++ [NUL]) ∧
      st.to_ ≤ bytes.length ∧ st.to_ ≤ st.from_ ∧ bytes.length ≤ st.from_ ∧
      st.from_ ≤ bytes.length + 1 ∧ st.data.length = bytes.length + 1 ∧
      st.data[bytes.length]? = some NUL := by
  obtain ⟨st', h1, h2, h3, h4, h5, h6, h7, h8⟩ :=
    legacy_loop_sim t bytes.length bytes.length ⟨bytes ++ [NUL], 0, 0⟩
      (by simp) (by simp) (by simp) (by simp) (by simp) (by simp)
  refine ⟨st', by simpa [legacy_filter] using h1, ?_, h5, h4, h2, h3, h6, h7⟩
  simpa [Buf.result, Buf.lineStart] using h8

/-! ## The filter on well-formed lines -/

theorem filterL_copy (t : Bool) (rest : List Char) (hrest : rest ≠ []) :
    ∀ body : List Char, '\n' ∉ body →
      filterL t false (body ++ '\n' :: rest) = body ++ '\n' :: filterL t true rest := by
  have hr : 0 < rest.length := List.length_pos.2 hrest
  intro body
  induction body with
  | nil =>
    intro _
    rw [filterL_step t false _ rest '\n' (by simp only [List.nil_append, List.length_cons]; omega)
      (by simp)]
    simp
  | cons b body ih =>
    intro hb
    simp only [List.mem_cons, not_or] at hb
    rw [List.cons_append, filterL_step t false _ (body ++ '\n' :: rest) b
      (by simp only [List.length_cons, List.length_append]; omega) (by simp)]
    have : decide (b = '\n') = false := by simpa using fun h => hb.1 h.symm
    rw [this, ih hb.2, List.cons_append]

theorem filterL_line (t : Bool) (s body rest : List Char) (k : Nat)
    (hk : skipMarkers t s = some k) (hdrop : s.drop k = body ++ '\n' :: rest)
    (hbody : '\n' ∉ body) (hrest : rest ≠ []) :
    filterL t true s = body ++ '\n' :: filterL t true rest := by
  have hr : 0 < rest.length := List.length_pos.2 hrest
  have hlen : 1 < s.length := by
    have h := congrArg List.length hdrop
    simp only [List.length_drop, List.length_append, List.length_cons] at h
    omega
  cases body with
  | nil =>
    rw [filterL_step t true s rest '\n' hlen (by simpa [hk] using hdrop)]
    simp
  | cons b body =>
    simp only [List.mem_cons, not_or] at hbody
    rw [filterL_step t true s (body ++ '\n' :: rest) b hlen (by simpa [hk] using hdrop)]
    have : decide (b = '\n') = false := by simpa using fun h => hbody.1 h.symm
    rw [this, filterL_copy t rest hrest body hbody.2]
    simp

theorem skipLevel_marker (N tail : List Char) (h1 : '>' ∉ N) (h2 : NUL ∉ N) :
    skipLevel ('<' :: (N ++ '>' :: tail)) = some (N.length + 2) := by
  have h := strchr_append '>' ('<' :: N) tail
    (by simp only [List.mem_cons, not_or]; exact ⟨by decide, h1⟩)
    (by simp only [List.mem_cons, not_or]; exact ⟨by decide, h2⟩)
  rw [List.cons_append] at h
  simp [skipLevel, h]

theorem skipTime_false (s : List Char) : skipTime false s = some 0 := by
  simp [skipTime]

theorem skipTime_marker (T tail : List Char) (h1 : ']' ∉ T) (h2 : NUL ∉ T) :
    skipTime true ('[' :: (T ++ ']' :: ' ' :: tail)) = some (T.length + 3) ∧
    (tail.head? ≠ some ' ' → tail ≠ [] →
      skipTime true ('[' :: (T ++ ']' :: tail)) = some (T.length + 2)) := by
  have h : ∀ tl, strchr ']' ('[' :: (T ++ ']' :: tl)) = some (some (T.length + 1)) := by
    intro tl
    have h := strchr_append ']' ('[' :: T) tl
      (by simp only [List.mem_cons, not_or]; exact ⟨by decide, h1⟩)
      (by simp only [List.mem_cons, not_or]; exact ⟨by decide, h2⟩)
    rw [List.cons_append] at h
    simpa using h
  have hget : ∀ tl, (T ++ ']' :: tl)[T.length + 1]? = tl.head? := by
    intro tl
    rw [List.getElem?_append_right (by omega)]
    simp only [Nat.add_sub_cancel_left, List.getElem?_cons_succ]
    cases tl <;> simp
  constructor
  · simp [skipTime, h, hget]
  · intro hsp hne
    cases tail with
    | nil => exact absurd rfl hne
    | cons x xs =>
      have hx : ¬ x = ' ' := by simpa using hsp
      simp [skipTime, h, hget, hx]

theorem filterL_markedLines (lines : List (List Char × List Char))
    (h : ∀ l ∈ lines, '>' ∉ l.1 ∧ NUL ∉ l.1 ∧ '\n' ∉ l.2) :
    filterL false true ((lines.map markedLine).flatten ++ [NUL])
      = (lines.map (fun l => l.2 ++ ['\n'])).flatten := by
  induction lines with
  | nil => simp [filterL_done]
  | cons l ls ih =>
    obtain ⟨h1, h2, h3⟩ := h l (List.mem_cons_self _ _)
    have hk : skipMarkers false (markedLine l ++ ((ls.map markedLine).flatten ++ [NUL]))
        = some (l.1.length + 2) := by
      simp only [skipMarkers, markedLine, List.cons_append, List.append_assoc,
        skipLevel_marker _ _ h1 h2, skipTime_false, Option.bind_eq_bind, Option.some_bind,
        Option.pure_def, Nat.add_zero]
    have hdrop : (markedLine l ++ ((ls.map markedLine).flatten ++ [NUL])).drop (l.1.length + 2)
        = l.2 ++ '\n' :: ((ls.map markedLine).flatten ++ [NUL]) := by
      simp only [markedLine, List.cons_append, List.append_assoc, List.drop_succ_cons]
      rw [show l.1.length + 1 = l.1.length + 1 from rfl, ← List.cons_append,
        List.drop_append_eq_append_drop]
      simp
    simp only [List.map_cons, List.flatten_cons, List.append_assoc]
    rw [filterL_line false _ _ _ _ hk hdrop h3 (by simp),
      ih (fun l' hl' => h l' (List.mem_cons_of_mem _ hl'))]
    simp

theorem drop_delim (a b : Char) (X tail : List Char) :
    (a :: (X ++ b :: tail)).drop (X.length + 2) = tail := by
  simp only [List.drop_succ_cons]
  rw [List.drop_append_eq_append_drop]
  simp

theorem skipMarkers_stamped (N T sp tail : List Char) (h1 : '>' ∉ N) (h2 : NUL ∉ N)
    (h3 : ']' ∉ T) (h4 : NUL ∉ T) (htail : tail ≠ [])
    (hsp : sp = [' '] ∨ (sp = [] ∧ tail.head? ≠ some ' ')) :
    skipMarkers true ('<' :: (N ++ '>' :: '[' :: (T ++ ']' :: (sp ++ tail))))
      = some (N.length + 2 + (T.length + 2 + sp.length)) := by
  have ht := skipTime_marker T tail h3 h4
  rcases hsp with hsp | ⟨hsp, hhd⟩
  · subst hsp
    simp only [skipMarkers, skipLevel_marker _ _ h1 h2, drop_delim, Option.bind_eq_bind,
      Option.some_bind, Option.pure_def, List.singleton_append, ht.1, List.length_singleton]
  · subst hsp
    simp only [skipMarkers, skipLevel_marker _ _ h1 h2, drop_delim, Option.bind_eq_bind,
      Option.some_bind, Option.pure_def, List.nil_append, ht.2 hhd htail, List.length_nil]

theorem skipMarkers_unstamped (N tail : List Char) (h1 : '>' ∉ N) (h2 : NUL ∉ N)
    (htail : tail ≠ []) (hhd : tail.head? ≠ some '[') :
    skipMarkers true ('<' :: (N ++ '>' :: tail)) = some (N.length + 2) := by
  cases tail with
  | nil => exact absurd rfl htail
  | cons x xs =>
    have hx : ¬ x = '[' := by simpa using hhd
    have ht : skipTime true (x :: xs) = some 0 := by simp [skipTime, hx]
    simp only [skipMarkers, skipLevel_marker _ _ h1 h2, drop_delim, Option.bind_eq_bind,
      Option.some_bind, Option.pure_def, ht, Nat.add_zero]

theorem filterL_stampedLines
    (lines : List (List Char × Option (List Char × List Char) × List Char))
    (h : ∀ l ∈ lines, StampedOk l) :
    filterL true true ((lines.map stampedLine).flatten ++ [NUL])
      = (lines.map (fun l => l.2.2 ++ ['\n'])).flatten := by
  induction lines with
  | nil => simp [filterL_done]
  | cons l ls ih =>
    obtain ⟨N, stamp, body⟩ := l
    obtain ⟨h1, h2, h5, h6⟩ := h _ (List.mem_cons_self _ _)
    simp only at h1 h2 h5 h6
    have hhead : ∀ c : Char, c ≠ '\n' → body.head? ≠ some c →
        (body ++ '\n' :: ((ls.map stampedLine).flatten ++ [NUL])).head? ≠ some c := by
      intro c hc hb
      cases body with
      | nil => simpa using fun h => hc h.symm
      | cons b bs => simpa using hb
    have hline : filterL true true ('<' :: (N ++ '>' :: (stampBytes stamp ++
        (body ++ '\n' :: ((ls.map stampedLine).flatten ++ [NUL])))))
        = body ++ '\n' :: filterL true true ((ls.map stampedLine).flatten ++ [NUL]) := by
      cases stamp with
      | none =>
        simp only [StampOk] at h6
        have hk := skipMarkers_unstamped N
          (body ++ '\n' :: ((ls.map stampedLine).flatten ++ [NUL])) h1 h2 (by simp)
          (hhead '[' (by decide) h6)
        simp only [stampBytes, List.nil_append]
        exact filterL_line true _ _ _ _ hk (drop_delim _ _ _ _) h5 (by simp)
      | some ts =>
        obtain ⟨T, sp⟩ := ts
        simp only [StampOk] at h6
        obtain ⟨h3, h4, h7⟩ := h6
        have hsp : sp = [' '] ∨ (sp = [] ∧
            (body ++ '\n' :: ((ls.map stampedLine).flatten ++ [NUL])).head? ≠ some ' ') := by
          rcases h7 with h7 | ⟨h7, h8⟩
          · exact Or.inl h7
          · exact Or.inr ⟨h7, hhead ' ' (by decide) h8⟩
        have hk := skipMarkers_stamped N T sp
          (body ++ '\n' :: ((ls.map stampedLine).flatten ++ [NUL])) h1 h2 h3 h4 (by simp) hsp
        have hdrop : ('<' :: (N ++ '>' :: '[' :: (T ++ ']' :: (sp ++
            (body ++ '\n' :: ((ls.map stampedLine).flatten ++ [NUL])))))).drop
              (N.length + 2 + (T.length + 2 + sp.length))
            = body ++ '\n' :: ((ls.map stampedLine).flatten ++ [NUL]) := by
          rw [← List.drop_drop, drop_delim, ← List.drop_drop, drop_delim, List.drop_left]
        simp only [stampBytes, List.cons_append, List.append_assoc]
        exact filterL_line true _ _ _ _ hk hdrop h5 (by simp)
    have hshape : (List.map stampedLine ((N, stamp, body) :: ls)).flatten ++ [NUL]
        = '<' :: (N ++ '>' :: (stampBytes stamp ++
        (body ++ '\n' :: ((ls.map stampedLine).flatten ++ [NUL])))) := by
      simp [stampedLine]
    rw [hshape, hline, ih (fun l' hl' => h l' (List.mem_cons_of_mem _ hl'))]
    simp

theorem legacy_write_eq (st : Buf) (h : st.to_ ≤ st.data.length) :
    legacy_write st = some (terminated st.result) := by
  unfold legacy_write terminated Buf.result
  by_cases h0 : st.to_ = 0
  · simp [h0]
  · have hb : st.to_ - 1 < st.data.length := by omega
    have hne : List.take st.to_ st.data ≠ [] := by
      intro hnil
      have := congrArg List.length hnil
      simp only [List.length_take, List.length_nil] at this
      omega
    have hlast : (List.take st.to_ st.data).getLast? = some st.data[st.to_ - 1] := by
      rw [List.getLast?_take, if_neg h0, List.getElem?_eq_getElem hb]; rfl
    rw [if_pos h0, List.getElem?_eq_getElem hb, if_neg hne, hlast]
    by_cases hnl : st.data[st.to_ - 1] = '\n'
    · simp [hnl]
    · simp [hnl]

theorem terminated_cases (R : List Char) :
    (terminated R ≠ [] → (terminated R).getLast? = some '\n') ∧
    (terminated R = R ∨ terminated R = R ++ ['\n']) := by
  unfold terminated
  by_cases h0 : R = []
  · simp [h0]
  · by_cases h1 : R.getLast? = some '\n'
    · simp [h0, h1]
    · simp [h0, h1]

/-! ## Legacy backend: the claims -/

/-- C1: legacy filter, timestamps kept.  For every buffer that is a concatenation of lines
`<N>body\n` (`N` without `>` and without NUL, `body` without newline), the filter with
raw = false and suppressTimestamp = false returns exactly the concatenation of the
`body\n`; a bracketed marker, being part of `body`, stays, and the marker of the first
line is recognised at the start of the buffer. -/
theorem legacy_filter_level_markers (lines : List (List Char × List Char))
    (h : ∀ l ∈ lines, '>' ∉ l.1 ∧ NUL ∉ l.1 ∧ '\n' ∉ l.2) :
    (legacy_filter false false (lines.map markedLine).flatten).map Buf.result
      = some (lines.map (fun l => l.2 ++ ['\n'])).flatten := by
  obtain ⟨st, h1, h2, _⟩ := legacy_filter_eq false (lines.map markedLine).flatten
  rw [h1, Option.map_some', h2, filterL_markedLines lines h]

/-- C1 at the buffer `<3>hello\n<7>[  123.456] world\n`: the hypothesis holds and the
filter returns `hello\n[  123.456] world\n`. -/
theorem legacy_filter_level_markers_witness :
    (∀ l ∈ [("3".toList, "hello".toList), ("7".toList, "[  123.456] world".toList)],
      '>' ∉ l.1 ∧ NUL ∉ l.1 ∧ '\n' ∉ l.2) ∧
    (legacy_filter false false "<3>hello\n<7>[  123.456] world\n".toList).map Buf.result
      = some "hello\n[  123.456] world\n".toList :=
  ⟨by decide, legacy_filter_level_markers
    [("3".toList, "hello".toList), ("7".toList, "[  123.456] world".toList)] (by decide)⟩

/-- C2: legacy filter, timestamps suppressed.  For every buffer that is a concatenation
of lines `<N>[T]` ++ `sp` ++ `body\n` (`N` without `>` and NUL, `T` without `]` and NUL,
`body` without newline, `sp` one space, or empty with `body` not starting with a space),
the filter with raw = false and suppressTimestamp = true returns exactly the concatenation
of the `body\n`.  Lines `<N>body\n` without time marker, whose `body` does not start with
`[`, may be mixed in. -/
theorem legacy_filter_time_markers
    (lines : List (List Char × Option (List Char × List Char) × List Char))
    (h : ∀ l ∈ lines, StampedOk l) :
    (legacy_filter false true (lines.map stampedLine).flatten).map Buf.result
      = some (lines.map (fun l => l.2.2 ++ ['\n'])).flatten := by
  obtain ⟨st, h1, h2, _⟩ := legacy_filter_eq true (lines.map stampedLine).flatten
  rw [h1, Option.map_some', h2, filterL_stampedLines lines h]

/-- C2 at the buffer `<3>hello\n<7>[  123.456] world\n`: the hypothesis holds and the
filter returns `hello\nworld\n`. -/
theorem legacy_filter_time_markers_witness :
    (∀ l ∈ [("3".toList, none, "hello".toList),
        ("7".toList, some ("  123.456".toList, " ".toList), "world".toList)], StampedOk l) ∧
    (legacy_filter false true "<3>hello\n<7>[  123.456] world\n".toList).map Buf.result
      = some "hello\nworld\n".toList :=
  ⟨by decide, legacy_filter_time_markers
    [("3".toList, none, "hello".toList),
      ("7".toList, some ("  123.456".toList, " ".toList), "world".toList)] (by decide)⟩

/-- C10: legacy output block.  For every buffer and every flag setting the filter returns
a region `R` (in raw mode the whole buffer), and `legacy_mode` writes nothing when `R` is
empty, `R` when `R` ends in a newline, and `R` followed by one newline otherwise; so a
non-empty output ends in a newline and at most one byte is appended to `R`. -/
theorem legacy_mode_output_block (raw t : Bool) (bytes : List Char) :
    ∃ st w, legacy_filter raw t bytes = some st ∧ legacy_mode raw t bytes = some w ∧
      w = terminated st.result ∧
      (st.result = [] → w = []) ∧
      (st.result.getLast? = some '\n' → w = st.result) ∧
      (st.result ≠ [] → st.result.getLast? ≠ some '\n' → w = st.result ++ ['\n']) ∧
      (w ≠ [] → w.getLast? = some '\n') ∧
      (w = st.result ∨ w = st.result ++ ['\n']) ∧
      (raw = true → st.result = bytes) := by
  have key : ∃ st, legacy_filter raw t bytes = some st ∧ st.to_ ≤ st.data.length ∧
      (raw = true → st.result = bytes) := by
    cases raw with
    | true =>
      exact ⟨⟨bytes ++ [NUL], bytes.length, 0⟩, by simp [legacy_filter], by simp,
        by simp [Buf.result]⟩
    | false =>
      obtain ⟨st, h1, _, h3, _, _, _, h7, _⟩ := legacy_filter_eq t bytes
      exact ⟨st, h1, by omega, by simp⟩
  obtain ⟨st, h1, h2, h3⟩ := key
  have hw := legacy_write_eq st h2
  obtain ⟨c1, c2⟩ := terminated_cases st.result
  refine ⟨st, terminated st.result, h1, by simp [legacy_mode, h1, hw], rfl, ?_, ?_, ?_,
    c1, c2, h3⟩
  · intro h; simp [terminated, h]
  · intro h
    have hne : st.result ≠ [] := by intro hn; rw [hn] at h; simp at h
    simp [terminated, h, hne]
  · intro hne h; simp [terminated, h, hne]

/-! ## Lemmas on the `sscanf` model -/

theorem isDigit_not_special (c : Char) (h : isDigit c = true) :
    isSpace c = false ∧ c ≠ '-' ∧ c ≠ '+' ∧ c ≠ NUL ∧ c ≠ ',' ∧ c ≠ ';' := by
  refine ⟨?_, ?_, ?_, ?_, ?_, ?_⟩
  · simp only [isSpace, Bool.decide_or, Bool.or_eq_false_iff, decide_eq_false_iff_not]
    refine ⟨?_, ?_, ?_, ?_, ?_, ?_⟩ <;> (intro hc; subst hc; revert h; decide)
  all_goals (intro hc; subst hc; revert h; decide)

theorem scanUnsigned_digits (ds rest : List Char) (h1 : ds ≠ [])
    (h2 : ∀ c ∈ ds, isDigit c = true) (h3 : ∀ c, rest.head? = some c → isDigit c = false) :
    scanUnsigned (ds ++ rest) = .ok (false, digitsValue ds) rest := by
  cases ds with
  | nil => exact absurd rfl h1
  | cons d ds =>
    have hd := h2 d (List.mem_cons_self _ _)
    obtain ⟨e1, e2, e3, _⟩ := isDigit_not_special d hd
    have htw : List.takeWhile isDigit (d :: (ds ++ rest)) = d :: ds := by
      rw [← List.cons_append, List.takeWhile_append_of_pos h2]
      cases rest with
      | nil => simp
      | cons r rs => simp [List.takeWhile, h3 r rfl]
    have hdw : List.dropWhile isDigit (d :: (ds ++ rest)) = rest := by
      rw [← List.cons_append, List.dropWhile_append_of_pos h2]
      cases rest with
      | nil => simp
      | cons r rs => simp [List.dropWhile, h3 r rfl]
    have hsp : List.dropWhile isSpace (d :: (ds ++ rest)) = d :: (ds ++ rest) := by
      simp [List.dropWhile, e1]
    unfold scanUnsigned
    rw [List.cons_append, hsp]
    simp only [e2, e3, or_self, if_false, decide_False]
    rw [htw, hdw]
    simp

theorem scanNotSemi_flags (flags R : List Char) (h1 : flags ≠ []) (h2 : ';' ∉ flags) :
    scanNotSemi (flags ++ ';' :: R) = some (';' :: R) := by
  have hp : ∀ c ∈ flags, (fun c : Char => decide (c ≠ ';')) c = true := by
    intro c hc
    have : c ≠ ';' := fun h => h2 (h ▸ hc)
    simpa using this
  have htw : List.takeWhile (fun c : Char => decide (c ≠ ';')) (flags ++ ';' :: R) = flags := by
    rw [List.takeWhile_append_of_pos hp]; simp [List.takeWhile]
  have hdw : List.dropWhile (fun c : Char => decide (c ≠ ';')) (flags ++ ';' :: R)
      = ';' :: R := by
    rw [List.dropWhile_append_of_pos hp]; simp [List.dropWhile]
  unfold scanNotSemi
  rw [htw, hdw, if_neg h1]

theorem sscanf_kmsg_header (fp seq ts flags R : List Char) (hfp : IsNumeral fp)
    (hseq : IsNumeral seq) (hts : IsNumeral ts) (hfl : flags ≠ []) (hsemi : ';' ∉ flags) :
    sscanf_kmsg (kmsgHeader fp seq ts flags ++ R)
      = { ret := 2, facpri := some (store 32 (false, digitsValue fp)),
          time_us := some (store 64 (false, digitsValue ts)),
          pos := some (kmsgHeader fp seq ts flags).length } := by
  have hstr : kmsgHeader fp seq ts flags ++ R
      = fp ++ ',' :: (seq ++ ',' :: (ts ++ ',' :: (flags ++ ';' :: R))) := by
    simp [kmsgHeader]
  have hcomma : ∀ (l : List Char) (c : Char), (',' :: l).head? = some c → isDigit c = false := by
    intro l c hc
    simp only [List.head?_cons, Option.some.injEq] at hc
    subst hc; decide
  have e1 := scanUnsigned_digits fp _ hfp.1 hfp.2
    (hcomma (seq ++ ',' :: (ts ++ ',' :: (flags ++ ';' :: R))))
  have e2 := scanUnsigned_digits seq _ hseq.1 hseq.2 (hcomma (ts ++ ',' :: (flags ++ ';' :: R)))
  have e3 := scanUnsigned_digits ts _ hts.1 hts.2 (hcomma (flags ++ ';' :: R))
  have e4 := scanNotSemi_flags flags R hfl hsemi
  unfold sscanf_kmsg
  rw [hstr, e1]
  simp only [scanLit, if_true, Option.some_bind, skipField, scanField, e2, e3, e4,
    Option.map_some', ScanResult.mk.injEq, true_and, Option.some.injEq]
  simp only [kmsgHeader, List.length_append, List.length_cons, List.length_nil]
  omega

theorem store_small (bits v : Nat) (hb : bits ≤ 64) (hv : v < 2 ^ bits) :
    store bits (false, v) = v := by
  have hpow : 2 ^ bits ≤ 2 ^ 64 := Nat.pow_le_pow_right (by omega) hb
  unfold store
  simp only [Bool.false_eq_true, if_false]
  rw [if_neg (by omega), Nat.mod_eq_of_lt hv]

theorem cstr_append (pre rest : List Char) (h : NUL ∉ pre) :
    cstr (pre ++ rest) = pre ++ cstr rest := by
  unfold cstr
  apply List.takeWhile_append_of_pos
  intro c hc
  have : c ≠ NUL := fun e => h (e ▸ hc)
  simpa using this

theorem kmsgHeader_no_nul (fp seq ts flags : List Char) (hfp : IsNumeral fp)
    (hseq : IsNumeral seq) (hts : IsNumeral ts) (hnul : NUL ∉ flags) :
    NUL ∉ kmsgHeader fp seq ts flags := by
  have hd : ∀ ds, IsNumeral ds → NUL ∉ ds := fun ds h hc =>
    (isDigit_not_special NUL (h.2 NUL hc)).2.2.2.1 rfl
  simp only [kmsgHeader, List.mem_append, List.mem_cons, List.mem_singleton, not_or,
    List.not_mem_nil, or_false]
  exact ⟨hd fp hfp, by decide, hd seq hseq, by decide, hd ts hts, by decide, hnul, by decide⟩

/-! ## Stream backend: the claims on the decoder -/

/-- C3 (amended): stream record decoding.  For every raw record
`fp,seq,ts,flags;text\ntrailing` of fewer than 8192 bytes in all, where `fp`, `seq`, `ts`
are non-empty strings of decimal digits (`fp` below 2^31, `ts` below 2^64), `flags` is
non-empty and holds neither `;` nor a NUL byte, and `text` holds neither newline nor NUL,
the decoder accepts the record with facilityPriority the value of `fp`, timestampMicros
the value of `ts`, and as text exactly the bytes between the `;` and the first newline;
the read loop writes the line of that record and goes on with the next read. -/
theorem decode_wellformed (fp seq ts flags text trailing : List Char)
    (hfp : IsNumeral fp) (hseq : IsNumeral seq) (hts : IsNumeral ts)
    (hfpv : digitsValue fp < 2 ^ 31) (htsv : digitsValue ts < 2 ^ 64)
    (hfl : flags ≠ []) (hsemi : ';' ∉ flags) (hnul : NUL ∉ flags)
    (hnl : '\n' ∉ text) (htext : NUL ∉ text)
    (hlen : (kmsgHeader fp seq ts flags ++ (text ++ '\n' :: trailing)).length < 8192) :
    decode (kmsgHeader fp seq ts flags ++ (text ++ '\n' :: trailing))
      = .record { facpri := digitsValue fp, time_us := digitsValue ts, text := text,
                  subsystem := subsystemOf text } ∧ '\n' ∉ text ∧
    ∀ (o : Opts) (klog : List Char) (rest : List ReadResult),
      dmesg_main o klog (.bytes (kmsgHeader fp seq ts flags ++ (text ++ '\n' :: trailing)) :: rest)
        = (dmesg_main o klog rest).after (format_line o
            { facpri := digitsValue fp, time_us := digitsValue ts, text := text,
              subsystem := subsystemOf text }) := by
  have hdec : decode (kmsgHeader fp seq ts flags ++ (text ++ '\n' :: trailing))
      = .record { facpri := digitsValue fp, time_us := digitsValue ts, text := text,
                  subsystem := subsystemOf text } := ?_
  · refine ⟨hdec, hnl, ?_⟩
    intro o klog rest
    have h0 : (kmsgHeader fp seq ts flags ++ (text ++ '\n' :: trailing)).length ≠ 0 := by
      simp
    simp only [dmesg_main, h0, Nat.not_le.2 hlen, hdec, if_false]
  have hh := kmsgHeader_no_nul fp seq ts flags hfp hseq hts hnul
  have hc : cstr ((kmsgHeader fp seq ts flags ++ (text ++ '\n' :: trailing)) ++ [NUL])
      = kmsgHeader fp seq ts flags ++ cstr ((text ++ '\n' :: trailing) ++ [NUL]) := by
    rw [List.append_assoc, cstr_append _ _ hh]
  have hs := sscanf_kmsg_header fp seq ts flags (cstr ((text ++ '\n' :: trailing) ++ [NUL]))
    hfp hseq hts hfl hsemi
  have htxt : textAt ((kmsgHeader fp seq ts flags ++ (text ++ '\n' :: trailing)) ++ [NUL])
      (kmsgHeader fp seq ts flags).length = some text := by
    unfold textAt
    rw [List.append_assoc, List.drop_left, List.append_assoc, List.cons_append,
      strchr_append '\n' text _ hnl htext]
    simp
  unfold decode
  rw [if_neg (Nat.not_le.2 hlen)]
  simp only [hc, hs, ne_eq, not_true_eq_false, if_false, htxt,
    store_small 32 _ (by omega) (show digitsValue fp < 2 ^ 32 by omega),
    store_small 64 _ (by omega) htsv]

/-- C3 at the record `3,0,1000000,-;k: boot ok\n SUBSYSTEM=x\n`: the hypotheses hold and
the decoder yields priority 3, time 1000000 and the text `k: boot ok`. -/
theorem decode_wellformed_witness :
    decode "3,0,1000000,-;k: boot ok\n SUBSYSTEM=x\n".toList
      = .record { facpri := 3, time_us := 1000000, text := "k: boot ok".toList,
                  subsystem := 1 } ∧
    "3,0,1000000,-;k: boot ok\n SUBSYSTEM=x\n".toList.length < 8192 :=
  ⟨(decode_wellformed "3".toList "0".toList "1000000".toList "-".toList "k: boot ok".toList
    " SUBSYSTEM=x\n".toList (by decide) (by decide) (by decide) (by decide) (by decide)
    (by decide) (by decide) (by decide) (by decide) (by decide) (by decide)).1,
    by decide⟩

/-- C3 as stated fails for a flags field that holds a NUL byte: the record
`3,0,5,` NUL `;x\n` meets every condition of the claim (its flags field is non-empty and has
no `;`), yet `sscanf` stops at the NUL with both numbers assigned, and the decoder goes on
with `pos` unwritten instead of yielding the record. -/
theorem decode_nul_in_flags :
    IsNumeral "3".toList ∧ IsNumeral "0".toList ∧ IsNumeral "5".toList ∧
    digitsValue "3".toList < 2 ^ 31 ∧ digitsValue "5".toList < 2 ^ 64 ∧
    [NUL] ≠ [] ∧ ';' ∉ [NUL] ∧ '\n' ∉ "x".toList ∧ NUL ∉ "x".toList ∧
    decode (kmsgHeader "3".toList "0".toList "5".toList [NUL] ++ ("x".toList ++ '\n' :: []))
      = .posUnset 3 5 ∧
    decode (kmsgHeader "3".toList "0".toList "5".toList [NUL] ++ ("x".toList ++ '\n' :: []))
      ≠ .record { facpri := digitsValue "3".toList, time_us := digitsValue "5".toList,
                  text := "x".toList, subsystem := subsystemOf "x".toList } := by
  decide

theorem decode_full_buffer :
    (kmsgHeader "3".toList "0".toList "5".toList "-".toList
      ++ (List.replicate 8183 'x' ++ '\n' :: [])).length = 8192 ∧
    decode (kmsgHeader "3".toList "0".toList "5".toList "-".toList
      ++ (List.replicate 8183 'x' ++ '\n' :: [])) = .fault := by
  have hh : (kmsgHeader "3".toList "0".toList "5".toList "-".toList).length = 8 := by decide
  have hl : (kmsgHeader "3".toList "0".toList "5".toList "-".toList
      ++ (List.replicate 8183 'x' ++ '\n' :: [])).length = 8192 := by
    rw [List.length_append, List.length_append, List.length_replicate, hh]
    rfl
  refine ⟨hl, ?_⟩
  unfold decode
  rw [if_pos (by rw [hl])]

theorem decode_not_two (msg : List Char) (hlen : msg.length < 8192)
    (h : (sscanf_kmsg (cstr (msg ++ [NUL]))).ret ≠ 2) : decode msg = .discarded := by
  simp [decode, h, Nat.not_le.2 hlen]

theorem dmesg_main_discard (o : Opts) (klog msg : List Char) (rest : List ReadResult)
    (h0 : msg.length ≠ 0) (h1 : msg.length < 8192) (h : decode msg = .discarded) :
    dmesg_main o klog (.bytes msg :: rest) = (dmesg_main o klog rest).after [] := by
  simp [dmesg_main, h0, Nat.not_le.2 h1, h]

/-- C4 fails at the record `6,1,2,-`, which has no `;`: `sscanf` has assigned both numbers
when the match of `;` fails, so it returns 2 with `pos` unwritten; the test of line 118
does not discard the record, and the run stops at the read of `pos` without reaching the
well-formed record that follows. -/
theorem decode_missing_semicolon (o : Opts) (klog : List Char) :
    ';' ∉ "6,1,2,-".toList ∧
    sscanf_kmsg (cstr ("6,1,2,-".toList ++ [NUL]))
      = { ret := 2, facpri := some 6, time_us := some 2, pos := none } ∧
    decode "6,1,2,-".toList = .posUnset 6 2 ∧
    decode "6,1,2,-".toList ≠ .discarded ∧
    dmesg_main o klog [.bytes "6,1,2,-".toList, .bytes "6,2,3,-;next\n".toList]
      = { out := [], reads := 1, legacyCalls := 0, stop := .posUnset } := by
  have h : decode "6,1,2,-".toList = .posUnset 6 2 := by decide
  refine ⟨by decide, by decide, h, by decide, ?_⟩
  simp only [dmesg_main, h]
  decide

/-! ## Subsystem detection -/

theorem strstr_spec (needle : List Char) :
    ∀ s : List Char,
      (∀ k, strstr needle s = some k →
        needle <+: s.drop k ∧ ∀ j, j < k → ¬ needle <+: s.drop j) ∧
      (strstr needle s = none → ∀ j, ¬ needle <+: s.drop j) := by
  intro s
  induction s with
  | nil =>
    by_cases hn : needle = []
    · simp [strstr, hn]
    · simp [strstr, hn]
  | cons x xs ih =>
    by_cases hp : needle.isPrefixOf (x :: xs) = true
    · simp only [strstr, hp, if_true, Option.some.injEq, reduceCtorEq, false_implies, and_true]
      intro k hk
      subst hk
      exact ⟨by simpa using List.isPrefixOf_iff_prefix.1 hp, by omega⟩
    · have hnp : ¬ needle <+: x :: xs := fun h => hp (List.isPrefixOf_iff_prefix.2 h)
      simp only [strstr, hp, Bool.false_eq_true, if_false, Option.map_eq_some',
        Option.map_eq_none']
      constructor
      · rintro k ⟨a, ha, rfl⟩
        obtain ⟨h1, h2⟩ := ih.1 a ha
        refine ⟨by simpa using h1, ?_⟩
        intro j hj
        cases j with
        | zero => simpa using hnp
        | succ j => simpa using h2 j (by omega)
      · intro hnone j
        cases j with
        | zero => simpa using hnp
        | succ j => simpa using ih.2 hnone j

theorem sep_prefix_iff (l : List Char) : [':', ' '] <+: l ↔ l.take 2 = [':', ' '] := by
  rw [List.prefix_iff_eq_take]
  simp only [List.length_cons, List.length_nil]
  exact eq_comm

/-- C5: subsystem detection.  For every text, `subsystem` is the offset of the first
occurrence of `": "` (an occurrence, and not above any occurrence), and 0 when there is
none; so a nonzero `subsystem` points at `": "` and no occurrence starts before it. -/
theorem subsystem_first_separator (text : List Char) :
    (∀ i, (text.drop i).take 2 = [':', ' '] →
      (text.drop (subsystemOf text)).take 2 = [':', ' '] ∧ subsystemOf text ≤ i) ∧
    ((∀ i, (text.drop i).take 2 ≠ [':', ' ']) → subsystemOf text = 0) ∧
    (subsystemOf text ≠ 0 →
      (text.drop (subsystemOf text)).take 2 = [':', ' '] ∧
      ∀ j, j < subsystemOf text → (text.drop j).take 2 ≠ [':', ' ']) := by
  obtain ⟨hsome, hnone⟩ := strstr_spec [':', ' '] text
  cases h : strstr [':', ' '] text with
  | none =>
    have hn := hnone h
    have h0 : subsystemOf text = 0 := by simp [subsystemOf, h]
    refine ⟨?_, fun _ => h0, fun hne => absurd h0 hne⟩
    intro i hi
    exact absurd ((sep_prefix_iff _).2 hi) (hn i)
  | some k =>
    obtain ⟨h1, h2⟩ := hsome k h
    have hk : subsystemOf text = k := by simp [subsystemOf, h]
    rw [hk]
    refine ⟨?_, ?_, ?_⟩
    · intro i hi
      refine ⟨(sep_prefix_iff _).1 h1, ?_⟩
      by_contra hlt
      exact h2 i (by omega) ((sep_prefix_iff _).2 hi)
    · intro hall
      exact absurd ((sep_prefix_iff _).1 h1) (hall k)
    · intro _
      exact ⟨(sep_prefix_iff _).1 h1, fun j hj hc => h2 j hj ((sep_prefix_iff _).2 hc)⟩

/-- C5 at the texts `foo: bar` and `foobar`: the first has its separator at offset 3, the
second has none and gets 0. -/
theorem subsystem_first_separator_witness :
    subsystemOf "foo: bar".toList = 3 ∧
    (("foo: bar".toList.drop 3).take 2 = [':', ' '] ∧
      ∀ j, j < subsystemOf "foo: bar".toList → ("foo: bar".toList.drop j).take 2 ≠ [':', ' ']) ∧
    subsystemOf "foobar".toList = 0 :=
  ⟨by decide, (subsystem_first_separator "foo: bar".toList).2.2 (by decide),
    (subsystem_first_separator "foobar".toList).2.1 (fun i => by
      rcases Nat.lt_or_ge i 6 with h | h
      · interval_cases i <;> decide
      · rw [List.drop_eq_nil_of_le (show "foobar".toList.length ≤ i from h)]
        decide)⟩

/-! ## Lemmas on decimal output -/

theorem digitChar_spec : ∀ d, d < 10 →
    (Nat.digitChar d).toNat - 48 = d ∧ isDigit (Nat.digitChar d) = true := by
  decide

theorem toDigitsCore_acc (fuel : Nat) : ∀ (n : Nat) (acc : List Char),
    Nat.toDigitsCore 10 fuel n acc = Nat.toDigitsCore 10 fuel n [] ++ acc := by
  induction fuel with
  | zero => intro n acc; simp [Nat.toDigitsCore]
  | succ fuel ih =>
    intro n acc
    simp only [Nat.toDigitsCore]
    split
    · simp
    · rw [ih _ (_ :: acc), ih _ [_]]; simp

theorem digitsValue_snoc (l : List Char) (c : Char) :
    digitsValue (l ++ [c]) = 10 * digitsValue l + (c.toNat - 48) := by
  simp [digitsValue, List.foldl_append]

theorem toDigitsCore_value (fuel : Nat) : ∀ n, n < fuel →
    digitsValue (Nat.toDigitsCore 10 fuel n []) = n := by
  induction fuel with
  | zero => intro n h; omega
  | succ fuel ih =>
    intro n h
    have hd := (digitChar_spec (n % 10) (Nat.mod_lt _ (by omega))).1
    simp only [Nat.toDigitsCore]
    split
    · rename_i h0
      simp only [digitsValue, List.foldl_cons, List.foldl_nil, Nat.mul_zero, Nat.zero_add]
      rw [hd]; omega
    · rename_i h0
      rw [toDigitsCore_acc, digitsValue_snoc, ih (n / 10) (by omega), hd]
      omega

theorem toDigitsCore_digits (fuel : Nat) : ∀ (n : Nat) (acc : List Char),
    (∀ c ∈ acc, isDigit c = true) → ∀ c ∈ Nat.toDigitsCore 10 fuel n acc, isDigit c = true := by
  induction fuel with
  | zero => intro n acc h; simpa [Nat.toDigitsCore] using h
  | succ fuel ih =>
    intro n acc h
    have hd := (digitChar_spec (n % 10) (Nat.mod_lt _ (by omega))).2
    have hacc : ∀ c ∈ Nat.digitChar (n % 10) :: acc, isDigit c = true := by
      intro c hc
      rcases List.mem_cons.1 hc with hc | hc
      · rw [hc]; exact hd
      · exact h c hc
    simp only [Nat.toDigitsCore]
    split
    · exact hacc
    · exact ih _ _ hacc

theorem decimal_value (n : Nat) : digitsValue (decimal n) = n :=
  toDigitsCore_value (n + 1) n (by omega)

theorem decimal_digits (n : Nat) : ∀ c ∈ decimal n, isDigit c = true :=
  toDigitsCore_digits (n + 1) n [] (by simp)

theorem decimal_length_le (n e : Nat) (h : n < 10 ^ e) (he : 0 < e) :
    (decimal n).length ≤ e :=
  Nat.toDigitsCore_length 10 (by decide) (n + 1) n e h he

theorem digitsValue_zeros (k : Nat) (l : List Char) :
    digitsValue (List.replicate k '0' ++ l) = digitsValue l := by
  induction k with
  | zero => simp
  | succ k ih =>
    simp only [digitsValue, List.replicate_succ, List.cons_append, List.foldl_cons] at ih ⊢
    exact ih

theorem readDecimal_blanks (k : Nat) (l : List Char) (h : ∀ c ∈ l, isDigit c = true) :
    readDecimal (List.replicate k ' ' ++ l) = digitsValue l := by
  unfold readDecimal
  rw [List.dropWhile_append_of_pos (by
    intro c hc
    simp [(List.mem_replicate.1 hc).2])]
  cases l with
  | nil => simp
  | cons x xs =>
    have hx : x ≠ ' ' := by
      intro hc
      have := h x (List.mem_cons_self _ _)
      rw [hc] at this
      revert this; decide
    simp [List.dropWhile, hx]

theorem fmtSigned_nat (w : Nat) (zero : Bool) (n : Nat) :
    fmtSigned w zero (n : Int) = padLeft w (if zero then '0' else ' ') (decimal n) := by
  unfold fmtSigned padLeft
  simp only [Int.natAbs_ofNat]
  rw [if_neg (by omega)]

theorem toSigned_small (bits x : Nat) (hb : 0 < bits) (h : x < 2 ^ (bits - 1)) :
    toSigned bits x = (x : Int) := by
  have hpow : 2 ^ (bits - 1) < 2 ^ bits := Nat.pow_lt_pow_right (by omega) (by omega)
  unfold toSigned
  rw [Nat.mod_eq_of_lt (by omega), if_pos h]

theorem toSigned_mod8 (fp : Nat) : toSigned 32 fp % 8 = ((fp % 8 : Nat) : Int) := by
  unfold toSigned
  have h : (2 : Nat) ^ 32 = 4294967296 := by norm_num
  have h' : (2 : Int) ^ 32 = 4294967296 := by norm_num
  rw [h, h']
  split <;> omega

theorem timestampBytes_eq (ts : Nat) (hts : ts < 2 ^ 64) :
    timestampBytes ts = '[' :: (secondsField ts ++ '.' :: (microsField ts ++ [']', ' '])) := by
  unfold timestampBytes secondsField microsField
  rw [toSigned_small 64 _ (by decide) (show ts / 1000000 < 2 ^ (64 - 1) by omega),
    toSigned_small 64 _ (by decide) (show ts % 1000000 < 2 ^ (64 - 1) by omega),
    fmtSigned_nat, fmtSigned_nat]
  simp

theorem timestamp_field_aux (raw : Bool) (ts : Nat) (hts : ts < 2 ^ 64) :
    render (timestampField ⟨raw, false, false⟩ ts)
      = '[' :: (secondsField ts ++ '.' :: (microsField ts ++ [']', ' '])) := by
  simp [timestampField, timestampBytes_eq ts hts, color, render, Chunk.bytes]

/-! ## Line formatter: the claims -/

/-- C7: timestamp field.  For every `ts` below 2^64, without suppressTimestamp the field
is `[S.U] ` (inside the color markers when color is on), `S` the decimal of
`ts div 1000000` padded with blanks to at least 5 characters, `U` the decimal of
`ts mod 1000000` padded with zeros to exactly 6 digits; both hold only blanks and
digits (no sign), and read back they give `S * 1000000 + U = ts`.  With
suppressTimestamp nothing is written. -/
theorem timestamp_field (raw col : Bool) (ts : Nat) (hts : ts < 2 ^ 64) :
    timestampField ⟨raw, false, col⟩ ts
      = color col 32 ++ [.lit ('[' :: (secondsField ts ++ '.' :: (microsField ts ++ [']', ' '])))]
        ++ color col 0 ∧
    render (timestampField ⟨raw, false, false⟩ ts)
      = '[' :: (secondsField ts ++ '.' :: (microsField ts ++ [']', ' '])) ∧
    5 ≤ (secondsField ts).length ∧ (microsField ts).length = 6 ∧
    (∀ c ∈ secondsField ts, c = ' ' ∨ isDigit c = true) ∧
    (∀ c ∈ microsField ts, isDigit c = true) ∧
    readDecimal (secondsField ts) * 1000000 + readDecimal (microsField ts) = ts ∧
    timestampField ⟨raw, true, col⟩ ts = [] := by
  have hU : (decimal (ts % 1000000)).length ≤ 6 :=
    decimal_length_le _ 6 (by have := Nat.mod_lt ts (show 0 < 1000000 by omega); omega)
      (by omega)
  have hUd : ∀ c ∈ microsField ts, isDigit c = true := by
    intro c hc
    simp only [microsField, padLeft, List.mem_append, List.mem_replicate] at hc
    rcases hc with ⟨_, hc⟩ | hc
    · rw [hc]; decide
    · exact decimal_digits _ c hc
  refine ⟨?_, ?_, ?_, ?_, ?_, hUd, ?_, ?_⟩
  · simp [timestampField, timestampBytes_eq ts hts]
  · simp [timestampField, timestampBytes_eq ts hts, color, render, Chunk.bytes]
  · simp only [secondsField, padLeft, List.length_append, List.length_replicate]; omega
  · simp only [microsField, padLeft, List.length_append, List.length_replicate]; omega
  · intro c hc
    simp only [secondsField, padLeft, List.mem_append, List.mem_replicate] at hc
    rcases hc with ⟨_, hc⟩ | hc
    · exact Or.inl hc
    · exact Or.inr (decimal_digits _ c hc)
  · have h1 : readDecimal (secondsField ts) = ts / 1000000 := by
      rw [secondsField, padLeft, readDecimal_blanks _ _ (decimal_digits _), decimal_value]
    have h2 : readDecimal (microsField ts) = ts % 1000000 := by
      have := readDecimal_blanks 0 (microsField ts) hUd
      simp only [List.replicate_zero, List.nil_append] at this
      rw [this, microsField, padLeft, digitsValue_zeros, decimal_value]
    rw [h1, h2]
    omega
  · simp [timestampField]

/-- C7 at the largest 64-bit value: the field is `[18446744073709.551615] `, without
sign, and reads back as `ts`. -/
theorem timestamp_field_witness :
    18446744073709551615 < 2 ^ 64 ∧
    render (timestampField ⟨false, false, false⟩ 18446744073709551615)
      = "[18446744073709.551615] ".toList ∧
    readDecimal (secondsField 18446744073709551615) * 1000000
      + readDecimal (microsField 18446744073709551615) = 18446744073709551615 :=
  ⟨by decide, by decide,
    (timestamp_field false false 18446744073709551615 (by decide)).2.2.2.2.2.2.1⟩

/-- C6: plain line composition.  For every record with facilityPriority `fp` in 0..191,
a 64-bit `ts` and a `text` with its subsystem offset, without color the line is the
`<fp>` prefix in raw mode, then the timestamp field unless suppressed, then `text` and a
newline; the subsystem prefix followed by the remaining text is `text` byte for byte, in
the severe and in the non-severe branch alike. -/
theorem plain_line (raw t : Bool) (fp ts : Nat) (text : List Char) (hfp : fp ≤ 191)
    (hts : ts < 2 ^ 64) :
    render (format_line ⟨raw, t, false⟩ ⟨fp, ts, text, subsystemOf text⟩)
      = (if raw then '<' :: (decimal fp ++ ['>']) else []) ++
        (if t then [] else '[' :: (secondsField ts ++ '.' :: (microsField ts ++ [']', ' ']))) ++
        text ++ ['\n'] ∧
    render (subsystemField ⟨raw, t, false⟩ ⟨fp, ts, text, subsystemOf text⟩) ++
      restText ⟨fp, ts, text, subsystemOf text⟩ = text ∧
    render (restField ⟨raw, t, false⟩ fp (restText ⟨fp, ts, text, subsystemOf text⟩))
      = restText ⟨fp, ts, text, subsystemOf text⟩ ++ ['\n'] := by
  have hraw : fmtSigned 0 false (toSigned 32 fp) = decimal fp := by
    rw [toSigned_small 32 fp (by decide) (by omega), fmtSigned_nat]
    simp [padLeft]
  have hsub : render (subsystemField ⟨raw, t, false⟩ ⟨fp, ts, text, subsystemOf text⟩) ++
      restText ⟨fp, ts, text, subsystemOf text⟩ = text := by
    by_cases h0 : subsystemOf text = 0
    · simp [subsystemField, restText, h0, render]
    · simp [subsystemField, restText, h0, render, color, Chunk.bytes]
  have hrest : ∀ rest : List Char,
      render (restField ⟨raw, t, false⟩ fp rest) = rest ++ ['\n'] := by
    intro rest
    by_cases hsev : fp &&& 7 ≤ 3
    · simp [restField, hsev, render, color, Chunk.bytes]
    · simp [restField, hsev, render, Chunk.bytes]
  refine ⟨?_, hsub, hrest _⟩
  have hsplit : render (format_line ⟨raw, t, false⟩ ⟨fp, ts, text, subsystemOf text⟩)
      = render (rawPrefix ⟨raw, t, false⟩ fp) ++ render (timestampField ⟨raw, t, false⟩ ts) ++
        (render (subsystemField ⟨raw, t, false⟩ ⟨fp, ts, text, subsystemOf text⟩) ++
          restText ⟨fp, ts, text, subsystemOf text⟩) ++ ['\n'] := by
    simp only [format_line, render, List.map_append, List.flatten_append]
    have := hrest (restText ⟨fp, ts, text, subsystemOf text⟩)
    simp only [render] at this
    rw [this]
    simp
  rw [hsplit, hsub]
  have h1 : render (rawPrefix ⟨raw, t, false⟩ fp)
      = if raw then '<' :: (decimal fp ++ ['>']) else [] := by
    cases raw <;> simp [rawPrefix, render, Chunk.bytes, hraw]
  have h2 : render (timestampField ⟨raw, t, false⟩ ts)
      = if t then [] else '[' :: (secondsField ts ++ '.' :: (microsField ts ++ [']', ' '])) := by
    cases t
    · simpa using (timestamp_field_aux raw ts hts)
    · simp [timestampField, render]
  rw [h1, h2]

/-- C6 at the record (30, 1000000, `k: boot ok`) in raw mode with timestamps: the plain
line is `<30>[    1.000000] k: boot ok\n`. -/
theorem plain_line_witness :
    (30 ≤ 191 ∧ 1000000 < 2 ^ 64) ∧
    render (format_line ⟨true, false, false⟩
      ⟨30, 1000000, "k: boot ok".toList, subsystemOf "k: boot ok".toList⟩)
      = "<30>[    1.000000] k: boot ok\n".toList :=
  ⟨by decide,
    (plain_line true false 30 1000000 "k: boot ok".toList (by decide) (by decide)).1⟩

/-- C8: priority-to-color boundary.  With color on, the remaining text is written
between `ESC[31m` and `ESC[0m` and then a newline exactly when `fp mod 8 <= 3`, and plain
with a newline exactly when `fp mod 8 >= 4`; only `fp mod 8` matters, and it is the same
for the bit pattern `fp` and for the `int` it stands for. -/
theorem error_color_boundary (raw t : Bool) (fp : Nat) (text : List Char) :
    restField ⟨raw, t, true⟩ fp text
      = (if fp % 8 ≤ 3 then [.esc 31, .lit text, .esc 0, .lit ['\n']]
         else [.lit (text ++ ['\n'])]) ∧
    (render (restField ⟨raw, t, true⟩ fp text)
      = ESC :: '[' :: '3' :: '1' :: 'm' :: (text ++ [ESC, '[', '0', 'm', '\n']) ↔ fp % 8 ≤ 3) ∧
    (render (restField ⟨raw, t, true⟩ fp text) = text ++ ['\n'] ↔ 4 ≤ fp % 8) ∧
    restField ⟨raw, t, true⟩ fp text = restField ⟨raw, t, true⟩ (fp % 8) text ∧
    toSigned 32 fp % 8 = ((fp % 8 : Nat) : Int) := by
  have hand : ∀ x : Nat, x &&& 7 = x % 8 := fun x => Nat.and_pow_two_sub_one_eq_mod x 3
  have h31 : decimal 31 = ['3', '1'] := by decide
  have h0 : decimal 0 = ['0'] := by decide
  have hne : ESC :: '[' :: '3' :: '1' :: 'm' :: (text ++ [ESC, '[', '0', 'm', '\n'])
      ≠ text ++ ['\n'] := by
    intro h
    have := congrArg List.length h
    simp only [List.length_cons, List.length_append, List.length_nil] at this
    omega
  by_cases hsev : fp % 8 ≤ 3
  · have e : restField ⟨raw, t, true⟩ fp text = [.esc 31, .lit text, .esc 0, .lit ['\n']] := by
      simp [restField, hand, hsev, color]
    have r : render (restField ⟨raw, t, true⟩ fp text)
        = ESC :: '[' :: '3' :: '1' :: 'm' :: (text ++ [ESC, '[', '0', 'm', '\n']) := by
      rw [e]; simp [render, Chunk.bytes, h31, h0]
    refine ⟨by rw [e, if_pos hsev], ⟨fun _ => hsev, fun _ => r⟩, ?_, ?_, toSigned_mod8 fp⟩
    · rw [r]
      exact ⟨fun h => absurd h hne, fun h => by omega⟩
    · rw [e]
      simp [restField, hand, hsev, color]
  · have e : restField ⟨raw, t, true⟩ fp text = [.lit (text ++ ['\n'])] := by
      simp [restField, hand, hsev]
    have r : render (restField ⟨raw, t, true⟩ fp text) = text ++ ['\n'] := by
      rw [e]; simp [render, Chunk.bytes]
    refine ⟨by rw [e, if_neg hsev], ?_, ⟨fun _ => by omega, fun _ => r⟩, ?_, toSigned_mod8 fp⟩
    · rw [r]
      exact ⟨fun h => absurd h.symm hne, fun h => absurd h hsev⟩
    · rw [e]
      simp [restField, hand, hsev]

/-- C8 at priorities 3 and 4 of facility 1 (`fp` = 11 and 12): the first is written in
the error color, the second plain. -/
theorem error_color_boundary_witness :
    render (restField ⟨false, false, true⟩ 11 "x".toList)
      = [ESC, '[', '3', '1', 'm', 'x', ESC, '[', '0', 'm', '\n'] ∧
    render (restField ⟨false, false, true⟩ 12 "x".toList) = ['x', '\n'] :=
  ⟨(error_color_boundary false false 11 "x".toList).2.1.2 (by decide),
    (error_color_boundary false false 12 "x".toList).2.2.1.2 (by decide)⟩

/-- C9: color markers.  For every record and every raw/suppressTimestamp setting, the
line written with color off has no escape chunk, and the line written with color on is
that same line once the chunks written by `color` are removed; those chunks are
`ESC[32m`, `ESC[33m`, `ESC[31m` and `ESC[0m` only. -/
theorem color_markers_only (raw t : Bool) (r : LogRecord) :
    (∀ c ∈ format_line ⟨raw, t, false⟩ r, c.isLit = true) ∧
    (format_line ⟨raw, t, true⟩ r).filter Chunk.isLit = format_line ⟨raw, t, false⟩ r ∧
    render ((format_line ⟨raw, t, true⟩ r).filter Chunk.isLit)
      = render (format_line ⟨raw, t, false⟩ r) ∧
    (∀ c, Chunk.esc c ∈ format_line ⟨raw, t, true⟩ r → c = 32 ∨ c = 33 ∨ c = 31 ∨ c = 0) ∧
    (Chunk.esc 32).bytes = [ESC, '[', '3', '2', 'm'] ∧
    (Chunk.esc 33).bytes = [ESC, '[', '3', '3', 'm'] ∧
    (Chunk.esc 31).bytes = [ESC, '[', '3', '1', 'm'] ∧
    (Chunk.esc 0).bytes = [ESC, '[', '0', 'm'] := by
  have hfilter : (format_line ⟨raw, t, true⟩ r).filter Chunk.isLit
      = format_line ⟨raw, t, false⟩ r := by
    simp only [format_line, rawPrefix, timestampField, subsystemField, restField, color]
    cases raw <;> cases t <;> by_cases h0 : r.subsystem = 0 <;>
      by_cases hsev : r.facpri &&& 7 ≤ 3 <;>
      simp [h0, hsev, List.filter, Chunk.isLit]
  refine ⟨?_, hfilter, by rw [hfilter], ?_, by decide, by decide, by decide, by decide⟩
  · intro c hc
    rw [← hfilter] at hc
    exact (List.mem_filter.1 hc).2
  · intro c
    simp only [format_line, rawPrefix, timestampField, subsystemField, restField, color]
    cases raw <;> cases t <;> by_cases h0 : r.subsystem = 0 <;>
      by_cases hsev : r.facpri &&& 7 ≤ 3 <;>
      simp [h0, hsev] <;> omega

/-! ## The read loop: lemmas -/

theorem legacy_mode_total (raw t : Bool) (bytes : List Char) :
    ∃ st, legacy_filter raw t bytes = some st ∧
      legacy_mode raw t bytes = some (terminated st.result) := by
  have key : ∃ st, legacy_filter raw t bytes = some st ∧ st.to_ ≤ st.data.length := by
    cases raw with
    | true => exact ⟨⟨bytes ++ [NUL], bytes.length, 0⟩, by simp [legacy_filter], by simp⟩
    | false =>
      obtain ⟨st, h1, _, h3, _, _, _, h7, _⟩ := legacy_filter_eq t bytes
      exact ⟨st, h1, by omega⟩
  obtain ⟨st, h1, h2⟩ := key
  exact ⟨st, h1, by simp [legacy_mode, h1, legacy_write_eq st h2]⟩

theorem dmesg_main_silent (o : Opts) (klog : List Char) (r : ReadResult)
    (rest : List ReadResult) (h : silent r = true) :
    dmesg_main o klog (r :: rest) = (dmesg_main o klog rest).after [] := by
  cases r with
  | error e =>
    have he : e = EPIPE := by simpa [silent] using h
    simp [dmesg_main, he]
  | bytes msg =>
    have hm : msg.length ≠ 0 ∧ msg.length < 8192 ∧ decode msg = .discarded := by
      simpa [silent] using h
    exact dmesg_main_discard o klog msg rest hm.1 hm.2.1 hm.2.2

theorem dmesg_main_legacy (o : Opts) (klog : List Char) (rest : List ReadResult) :
    ∃ w, legacy_mode o.raw o.t klog = some w ∧
      dmesg_main o klog (.error EINVAL :: rest)
        = { out := [.lit w], reads := 1, legacyCalls := 1, stop := .legacy } := by
  obtain ⟨st, _, h2⟩ := legacy_mode_total o.raw o.t klog
  have hne : ¬ EINVAL = EPIPE := by decide
  exact ⟨_, h2, by simp [dmesg_main, hne, h2]⟩

/-! ## The read loop: the claims -/

/-- C14: fallback trigger.  For every run in which the read fails with `EINVAL` before
any record was emitted (after any number of reads that failed with `EPIPE` or returned a
record that was discarded), `legacy_mode` is called exactly once, no read follows (the
reads `rest` that the device would still serve are not consumed), and the output of the
run is exactly what `legacy_mode` writes. -/
theorem fallback_trigger (o : Opts) (klog : List Char) (pre rest : List ReadResult)
    (h : ∀ r ∈ pre, silent r = true) :
    ∃ w, legacy_mode o.raw o.t klog = some w ∧
      dmesg_main o klog (pre ++ .error EINVAL :: rest)
        = { out := [.lit w], reads := pre.length + 1, legacyCalls := 1, stop := .legacy } := by
  obtain ⟨w, hw, hrun⟩ := dmesg_main_legacy o klog rest
  refine ⟨w, hw, ?_⟩
  induction pre with
  | nil => simpa using hrun
  | cons r pre ih =>
    rw [List.cons_append, dmesg_main_silent o klog r _ (h r (List.mem_cons_self _ _)),
      ih (fun r' hr' => h r' (List.mem_cons_of_mem _ hr'))]
    simp [Run.after]

/-- C14 at a run whose first two reads fail with `EPIPE` and whose third fails with
`EINVAL`, over the kernel buffer `<6>old\n`: three reads, one call of `legacy_mode`, output
`old\n`, and the record the device would serve next is not read. -/
theorem fallback_trigger_witness :
    (∀ r ∈ [ReadResult.error EPIPE, ReadResult.error EPIPE], silent r = true) ∧
    ∃ w, legacy_mode false false "<6>old\n".toList = some w ∧
      dmesg_main ⟨false, false, false⟩ "<6>old\n".toList
        ([.error EPIPE, .error EPIPE] ++ .error EINVAL :: [.bytes "6,2,3,-;next\n".toList])
        = { out := [.lit w], reads := 2 + 1, legacyCalls := 1, stop := .legacy } :=
  ⟨by decide, fallback_trigger ⟨false, false, false⟩ "<6>old\n".toList
    [.error EPIPE, .error EPIPE] [.bytes "6,2,3,-;next\n".toList] (by decide)⟩

theorem after_fields (cs : List Chunk) (r : Run) :
    (r.after cs).out = cs ++ r.out ∧ (r.after cs).stop = r.stop ∧
      (r.after cs).legacyCalls = r.legacyCalls ∧ (r.after cs).reads = r.reads + 1 := by
  simp [Run.after]

theorem dmesg_main_continues (o : Opts) (klog : List Char) (r : ReadResult)
    (rest : List ReadResult) (h : continues r = true) :
    dmesg_main o klog (r :: rest) = (dmesg_main o klog rest).after (linesOf o r) := by
  cases r with
  | error e =>
    have he : e = EPIPE := by simpa [continues] using h
    simp [dmesg_main, he, linesOf]
  | bytes msg =>
    simp only [continues, Bool.and_eq_true, decide_eq_true_eq] at h
    obtain ⟨⟨h0, h1⟩, h2⟩ := h
    cases hd : decode msg with
    | discarded => simp [dmesg_main, h0, Nat.not_le.2 h1, hd, linesOf]
    | record rec => simp [dmesg_main, h0, Nat.not_le.2 h1, hd, linesOf]
    | posUnset a b => rw [hd] at h2; simp at h2
    | fault => rw [hd] at h2; simp at h2

theorem dmesg_main_calls (o : Opts) (klog : List Char) (reads : List ReadResult) :
    (dmesg_main o klog reads).legacyCalls ≤ 1 ∧
    (ReadResult.error EINVAL ∉ reads →
      (dmesg_main o klog reads).legacyCalls = 0 ∧ (dmesg_main o klog reads).stop ≠ .legacy) := by
  induction reads with
  | nil => simp [dmesg_main]
  | cons r reads ih =>
    obtain ⟨ih1, ih2⟩ := ih
    cases r with
    | error e =>
      by_cases he : e = EPIPE
      · subst he
        have hne : ¬ EPIPE = EINVAL := by decide
        simp only [dmesg_main, if_true, after_fields, List.mem_cons, not_or,
          ReadResult.error.injEq]
        exact ⟨ih1, fun h => ih2 h.2⟩
      · by_cases hi : e = EINVAL
        · subst hi
          obtain ⟨st, _, hw⟩ := legacy_mode_total o.raw o.t klog
          simp [dmesg_main, he, hw]
        · simp [dmesg_main, he, hi]
    | bytes msg =>
      by_cases h0 : msg.length = 0
      · simp [dmesg_main, h0]
      · by_cases h8 : 8192 ≤ msg.length
        · simp [dmesg_main, h0, h8]
        · cases hd : decode msg with
          | discarded =>
            simp only [dmesg_main, h0, h8, hd, if_false, after_fields, List.mem_cons, not_or]
            exact ⟨ih1, fun h => ih2 h.2⟩
          | record rec =>
            simp only [dmesg_main, h0, h8, hd, if_false, after_fields, List.mem_cons, not_or]
            exact ⟨ih1, fun h => ih2 h.2⟩
          | posUnset a b => simp [dmesg_main, h0, h8, hd]
          | fault => simp [dmesg_main, h0, h8, hd]

/-- C15 (amended): the fallback is not held back by earlier lines.  For every run in which
a read fails with `EINVAL` after reads that let the loop go on (failures with `EPIPE`,
records discarded, records decoded and written), `legacy_mode` is called once at that
read, no further read is made, and the writes of the run are, in the order of the calls,
the lines of the records read before the `EINVAL`, in their order, and then the block of
`legacy_mode`; with no record before the `EINVAL` the output is that block alone.  In no
run is `legacy_mode` called twice, and in a run without a read failing with `EINVAL` it
is not called. -/
theorem fallback_after_lines (o : Opts) (klog : List Char) (pre rest : List ReadResult)
    (h : ∀ r ∈ pre, continues r = true) :
    ∃ w, legacy_mode o.raw o.t klog = some w ∧
      dmesg_main o klog (pre ++ .error EINVAL :: rest)
        = { out := (pre.map (linesOf o)).flatten ++ [.lit w], reads := pre.length + 1,
            legacyCalls := 1, stop := .legacy } ∧
      ((pre.map (linesOf o)).flatten = [] →
        (dmesg_main o klog (pre ++ .error EINVAL :: rest)).out = [.lit w]) ∧
      (∀ reads : List ReadResult, (dmesg_main o klog reads).legacyCalls ≤ 1 ∧
        (ReadResult.error EINVAL ∉ reads →
          (dmesg_main o klog reads).legacyCalls = 0 ∧
          (dmesg_main o klog reads).stop ≠ .legacy)) := by
  obtain ⟨w, hw, hrun⟩ := dmesg_main_legacy o klog rest
  have main : dmesg_main o klog (pre ++ .error EINVAL :: rest)
      = { out := (pre.map (linesOf o)).flatten ++ [.lit w], reads := pre.length + 1,
          legacyCalls := 1, stop := .legacy } := by
    induction pre with
    | nil => simpa using hrun
    | cons r pre ih =>
      rw [List.cons_append, dmesg_main_continues o klog r _ (h r (List.mem_cons_self _ _)),
        ih (fun r' hr' => h r' (List.mem_cons_of_mem _ hr'))]
      simp [Run.after]
  refine ⟨w, hw, main, ?_, dmesg_main_calls o klog⟩
  intro hnil
  rw [main, hnil]
  rfl

/-- C15 (amended) at the run that reads the record `3,0,1000000,-;k: boot ok\n` and then
fails with `EINVAL`, over the kernel buffer `<6>old\n`: two reads, one call of
`legacy_mode`, the line of the record and then the legacy block; the record the device
would serve next is not read. -/
theorem fallback_after_lines_witness :
    (∀ r ∈ [ReadResult.bytes "3,0,1000000,-;k: boot ok\n".toList], continues r = true) ∧
    ∃ w, legacy_mode false false "<6>old\n".toList = some w ∧
      dmesg_main ⟨false, false, false⟩ "<6>old\n".toList
        ([.bytes "3,0,1000000,-;k: boot ok\n".toList] ++ .error EINVAL ::
          [.bytes "6,2,3,-;next\n".toList])
        = { out := ([ReadResult.bytes "3,0,1000000,-;k: boot ok\n".toList].map
              (linesOf ⟨false, false, false⟩)).flatten ++ [.lit w],
            reads := 1 + 1, legacyCalls := 1, stop := .legacy } :=
  ⟨by decide,
    (fallback_after_lines ⟨false, false, false⟩ "<6>old\n".toList
      [.bytes "3,0,1000000,-;k: boot ok\n".toList] [.bytes "6,2,3,-;next\n".toList]
      (by decide)).imp (fun _ hw => ⟨hw.1, hw.2.1⟩)⟩

/-- C15 as stated fails when `EINVAL` is read after a record: over the kernel buffer
`<6>old\n`, the run that reads `3,0,1000000,-;k: boot ok\n` and then fails with `EINVAL`
writes the line of the record and then calls `legacy_mode`, which writes the block
`old\n`: both sources write in one run, the legacy block after a line was emitted. -/
theorem legacy_after_stream_line :
    dmesg_main ⟨false, false, false⟩ "<6>old\n".toList
      [.bytes "3,0,1000000,-;k: boot ok\n".toList, .error EINVAL]
      = { out := format_line ⟨false, false, false⟩ ⟨3, 1000000, "k: boot ok".toList, 1⟩
            ++ [.lit "old\n".toList],
          reads := 2, legacyCalls := 1, stop := .legacy } ∧
    render (format_line ⟨false, false, false⟩ ⟨3, 1000000, "k: boot ok".toList, 1⟩)
      = "[    1.000000] k: boot ok\n".toList ∧
    legacy_mode false false "<6>old\n".toList = some "old\n".toList := by
  decide

/-- C16 (amended): other read failures end the run like the end of data.  For every read
that fails with an error other than `EPIPE` and `EINVAL`, at any point of a run, the
loop is left by the `break` of line 114 and `dmesg_main` returns normally: nothing is
written for that read, `legacy_mode` is not called, no later read is made, and the run is
the very run that a zero-length read at that point gives. -/
theorem other_failure_returns (o : Opts) (klog : List Char) (pre rest : List ReadResult)
    (e : Nat) (h1 : e ≠ EPIPE) (h2 : e ≠ EINVAL) :
    dmesg_main o klog (.error e :: rest)
      = { out := [], reads := 1, legacyCalls := 0, stop := .returned } ∧
    dmesg_main o klog (.bytes [] :: rest)
      = { out := [], reads := 1, legacyCalls := 0, stop := .returned } ∧
    dmesg_main o klog (pre ++ .error e :: rest) = dmesg_main o klog (pre ++ [.bytes []]) := by
  have e1 : ∀ l, dmesg_main o klog (.error e :: l)
      = { out := [], reads := 1, legacyCalls := 0, stop := .returned } := by
    intro l; simp [dmesg_main, h1, h2]
  have e2 : ∀ l, dmesg_main o klog (.bytes [] :: l)
      = { out := [], reads := 1, legacyCalls := 0, stop := .returned } := by
    intro l; simp [dmesg_main]
  refine ⟨e1 rest, e2 rest, ?_⟩
  induction pre with
  | nil => simp only [List.nil_append, e1, e2]
  | cons r pre ih =>
    simp only [List.cons_append]
    cases r with
    | error e' => simp only [dmesg_main, ih]
    | bytes msg => simp only [dmesg_main, ih]

/-- C16 at the failures `EIO_` and `EAGAIN`: each ends the run by a normal return, also
after a record was written. -/
theorem other_failure_returns_witness :
    (EIO_ ≠ EPIPE ∧ EIO_ ≠ EINVAL ∧ EAGAIN ≠ EPIPE ∧ EAGAIN ≠ EINVAL) ∧
    dmesg_main ⟨false, false, false⟩ [] [.error EIO_, .bytes "6,2,3,-;next\n".toList]
      = { out := [], reads := 1, legacyCalls := 0, stop := .returned } ∧
    dmesg_main ⟨false, false, false⟩ [] ([.bytes "6,2,3,-;next\n".toList] ++ [.error EAGAIN])
      = dmesg_main ⟨false, false, false⟩ []
          ([.bytes "6,2,3,-;next\n".toList] ++ [.bytes []]) :=
  ⟨by decide,
    (other_failure_returns ⟨false, false, false⟩ [] [] [.bytes "6,2,3,-;next\n".toList] EIO_
      (by decide) (by decide)).1,
    (other_failure_returns ⟨false, false, false⟩ [] [.bytes "6,2,3,-;next\n".toList] [] EAGAIN
      (by decide) (by decide)).2.2⟩

/-- C16 as stated fails at a read that fails with `EIO_`: the run ends with the normal
return of `dmesg_main`, and it is the same run as for a zero-length read. -/
theorem read_failure_is_not_an_error :
    EIO_ ≠ EPIPE ∧ EIO_ ≠ EINVAL ∧
    dmesg_main ⟨false, false, false⟩ [] [.error EIO_]
      = { out := [], reads := 1, legacyCalls := 0, stop := .returned } ∧
    dmesg_main ⟨false, false, false⟩ [] [.error EIO_]
      = dmesg_main ⟨false, false, false⟩ [] [.bytes []] := by
  decide

/-- C13 (amended): end to end.  The record `3,0,1000000,-;k: boot ok\n` decodes to
priority 3, time 1000000 and text `k: boot ok` with subsystem prefix `k`; with
timestamps shown and raw mode off its line, the color escapes left out, is
`[    1.000000] k: boot ok` and a newline: the seconds are padded to five characters. -/
theorem end_to_end_line :
    decode "3,0,1000000,-;k: boot ok\n".toList
      = .record ⟨3, 1000000, "k: boot ok".toList, 1⟩ ∧
    "k: boot ok".toList.take 1 = "k".toList ∧
    format_line ⟨false, false, true⟩ ⟨3, 1000000, "k: boot ok".toList, 1⟩
      = [.esc 32, .lit "[    1.000000] ".toList, .esc 0, .esc 33, .lit "k".toList, .esc 0,
         .esc 31, .lit ": boot ok".toList, .esc 0, .lit "\n".toList] ∧
    render ((format_line ⟨false, false, true⟩ ⟨3, 1000000, "k: boot ok".toList, 1⟩).filter
      Chunk.isLit) = "[    1.000000] k: boot ok\n".toList ∧
    render (format_line ⟨false, false, false⟩ ⟨3, 1000000, "k: boot ok".toList, 1⟩)
      = "[    1.000000] k: boot ok\n".toList ∧
    (dmesg_main ⟨false, false, true⟩ [] [.bytes "3,0,1000000,-;k: boot ok\n".toList]).out
      = format_line ⟨false, false, true⟩ ⟨3, 1000000, "k: boot ok".toList, 1⟩ := by
  decide

/-- C13 as stated fails: the line of the record is not `[ 1.000000] k: boot ok`, with
color off or with the color escapes left out. -/
theorem end_to_end_line_padding :
    render ((format_line ⟨false, false, true⟩ ⟨3, 1000000, "k: boot ok".toList, 1⟩).filter
      Chunk.isLit) ≠ "[ 1.000000] k: boot ok\n".toList ∧
    render (format_line ⟨false, false, false⟩ ⟨3, 1000000, "k: boot ok".toList, 1⟩)
      ≠ "[ 1.000000] k: boot ok\n".toList ∧
    render (format_line ⟨false, false, false⟩ ⟨3, 1000000, "k: boot ok".toList, 1⟩)
      ≠ "[ 1.000000] k: boot ok".toList := by
  decide

/-- C18 fails for a read that fills the buffer: `read(fd, msg, sizeof(msg))` may return
8192, and then `msg[len] = 0` writes at index 8192 of `char msg[8192]`; the run stops at
that write. -/
theorem terminator_outside_msg (o : Opts) (klog : List Char) (rest : List ReadResult) :
    (List.replicate 8192 'x').length = 8192 ∧
    ¬ (List.replicate 8192 'x').length < 8192 ∧
    dmesg_main o klog (.bytes (List.replicate 8192 'x') :: rest)
      = { out := [], reads := 1, legacyCalls := 0, stop := .overflow } := by
  have hl : (List.replicate 8192 'x').length = 8192 := List.length_replicate _ _
  refine ⟨hl, by rw [hl]; decide, ?_⟩
  simp only [dmesg_main]
  rw [hl, if_neg (by decide), if_pos (by decide)]

/-! ## The filter on a buffer without markers -/

theorem skipMarkers_plain (t : Bool) (c : Char) (s : List Char) (h1 : c ≠ '<')
    (h2 : t = true → c ≠ '[') : skipMarkers t (c :: s) = some 0 := by
  have hl : skipLevel (c :: s) = some 0 := by simp [skipLevel, h1]
  have ht : skipTime t (c :: s) = some 0 := by
    cases t with
    | false => simp [skipTime]
    | true => simp [skipTime, h2 rfl]
  simp [skipMarkers, hl, ht]

theorem filterL_unmarked (t : Bool) : ∀ (r : List Char) (ls : Bool),
    unmarked t ls r = true → filterL t ls (r ++ [NUL]) = r := by
  intro r
  induction r with
  | nil => intro ls _; exact filterL_done t ls _ (by simp)
  | cons c r ih =>
    intro ls h
    simp only [unmarked, Bool.and_eq_true, Bool.not_eq_true', Bool.and_eq_false_iff,
      Bool.or_eq_false_iff, decide_eq_false_iff_not] at h
    obtain ⟨h1, h2⟩ := h
    have hk : (if ls then (skipMarkers t (c :: r ++ [NUL])).getD 0 else 0) = 0 := by
      cases ls with
      | false => simp
      | true =>
        have h1' : ¬ c = '<' ∧ (t = false ∨ ¬ c = '[') := by simpa using h1
        have hp := skipMarkers_plain t c (r ++ [NUL]) h1'.1 (fun ht => by
          rcases h1'.2 with h | h
          · rw [ht] at h; exact absurd h (by decide)
          · exact h)
        simp [hp]
    rw [filterL_step t ls (c :: r ++ [NUL]) (r ++ [NUL]) c (by simp) (by rw [hk]; simp),
      ih _ h2]

/-- C11 (amended): legacy filter idempotence on output without markers.  For every
buffer `b` and either suppressTimestamp setting, if no line of the filtered output `R`
starts with `<` (nor with `[` when timestamps are suppressed), a second pass of the
filter over `R` returns `R`: filter(filter(b)) = filter(b). -/
theorem legacy_filter_idempotent (t : Bool) (b R : List Char)
    (h1 : (legacy_filter false t b).map Buf.result = some R)
    (h2 : unmarked t true R = true) :
    (legacy_filter false t R).map Buf.result = some R ∧
    (legacy_filter false t R).map Buf.result = (legacy_filter false t b).map Buf.result := by
  obtain ⟨st, e1, e2, _⟩ := legacy_filter_eq t R
  have h : (legacy_filter false t R).map Buf.result = some R := by
    rw [e1, Option.map_some', e2, filterL_unmarked t R true h2]
  exact ⟨h, by rw [h, h1]⟩

/-- C11 at the buffer `<3>hello\n<7>[  123.456] world\n` with timestamps kept: the first
pass gives `hello\n[  123.456] world\n`, which has no line starting with `<`, and the second
pass returns it unchanged. -/
theorem legacy_filter_idempotent_witness :
    (legacy_filter false false "<3>hello\n<7>[  123.456] world\n".toList).map Buf.result
      = some "hello\n[  123.456] world\n".toList ∧
    unmarked false true "hello\n[  123.456] world\n".toList = true ∧
    (legacy_filter false false "hello\n[  123.456] world\n".toList).map Buf.result
      = some "hello\n[  123.456] world\n".toList :=
  ⟨by decide, by decide,
    (legacy_filter_idempotent false "<3>hello\n<7>[  123.456] world\n".toList
      "hello\n[  123.456] world\n".toList (by decide) (by decide)).1⟩

/-- C11 as stated fails at the buffer `<1><2>x\n`: the first pass strips `<1>` and gives
`<2>x\n`, the second pass strips `<2>` and gives `x\n`. -/
theorem legacy_filter_twice_differs :
    (legacy_filter false false "<1><2>x\n".toList).map Buf.result = some "<2>x\n".toList ∧
    (legacy_filter false false "<2>x\n".toList).map Buf.result = some "x\n".toList ∧
    (legacy_filter false false "<2>x\n".toList).map Buf.result
      ≠ (legacy_filter false false "<1><2>x\n".toList).map Buf.result ∧
    (legacy_filter false true "<1><2>x\n".toList).map Buf.result = some "<2>x\n".toList ∧
    (legacy_filter false true "<2>x\n".toList).map Buf.result = some "x\n".toList := by
  decide

/-! ## Copied and skipped bytes -/

theorem filterL_sublist (t : Bool) : ∀ (n : Nat) (s : List Char) (ls : Bool),
    s.length = n → (filterL t ls s).Sublist s := by
  intro n
  induction n using Nat.strong_induction_on with
  | _ n ih =>
    intro s ls hn
    by_cases h : s.length ≤ 1
    · rw [filterL_done t ls s h]; exact List.nil_sublist _
    · cases hd : s.drop (if ls then (skipMarkers t s).getD 0 else 0) with
      | nil =>
        have : filterL t ls s = [] := by
          rw [filterL]
          simp only [h, if_false]
          split
          · rfl
          · rename_i c s' h'; rw [hd] at h'; simp at h'
        rw [this]; exact List.nil_sublist _
      | cons c s' =>
        rw [filterL_step t ls s s' c (by omega) hd]
        have hlen : s'.length < n := by
          have := congrArg List.length hd
          simp only [List.length_drop, List.length_cons] at this
          omega
        have hsub := ih s'.length hlen s' (decide (c = '\n')) rfl
        have hsplit := List.take_append_drop (if ls then (skipMarkers t s).getD 0 else 0) s
        rw [hd] at hsplit
        rw [← hsplit]
        exact (List.Sublist.cons₂ c hsub).trans (List.sublist_append_right _ _)

theorem legacy_loop_inv (t : Bool) (size : Nat) :
    ∀ (n : Nat) (st : Buf), st.data.length = size + 1 → st.data[size]? = some NUL →
      st.to_ ≤ st.from_ → st.to_ ≤ size → st.from_ ≤ size + 1 →
      ∃ st', legacy_loop t size n st = some st' ∧ st'.data.length = size + 1 ∧
        st'.data[size]? = some NUL ∧ st'.to_ ≤ st'.from_ ∧ st'.to_ ≤ size ∧
        st'.from_ ≤ size + 1 := by
  intro n
  induction n with
  | zero =>
    intro st hlen hN hto hto' hfr
    exact ⟨st, rfl, hlen, hN, hto, hto', hfr⟩
  | succ n ih =>
    intro st hlen hN hto hto' hfr
    by_cases hlt : st.from_ < size
    · obtain ⟨k, c, _, hk3, _, hstep⟩ := legacy_step_spec t size st hlen hN hto hlt
      have hset : (st.data.set st.to_ c)[size]? = some NUL := by
        rw [List.getElem?_set_ne (by omega)]; exact hN
      obtain ⟨st', h1, h2⟩ := ih ⟨st.data.set st.to_ c, st.to_ + 1, st.from_ + k + 1⟩
        (by simp [hlen]) hset (by simp only; omega) (by simp only; omega) (by simp only; omega)
      refine ⟨st', ?_, h2⟩
      simp only [legacy_loop, if_pos hlt, hstep, Option.some_bind]
      exact h1
    · exact ⟨st, by simp [legacy_loop, hlt], hlen, hN, hto, hto', hfr⟩

/-! ## Legacy backend: further claims -/

/-- C12 fails at the buffer `<1>`, whose marker ends at the end of the buffer: after the
skip `from` stands on the sentinel, line 60 copies it, and the filter returns a NUL byte
that is no byte of the input (`legacy_mode` writes it and a newline).  In general the
output is a subsequence of the input bytes followed by the sentinel. -/
theorem legacy_filter_copies_sentinel (t : Bool) (bytes : List Char) :
    (∃ st, legacy_filter false t bytes = some st ∧ st.result.Sublist (bytes ++ [NUL])) ∧
    (legacy_filter false t "<1>".toList).map Buf.result = some [NUL] ∧
    ¬ [NUL].Sublist "<1>".toList ∧
    legacy_mode false t "<1>".toList = some [NUL, '\n'] := by
  refine ⟨?_, ?_, by decide, ?_⟩
  · obtain ⟨st, h1, h2, _⟩ := legacy_filter_eq t bytes
    exact ⟨st, h1, by rw [h2]; exact filterL_sublist t _ _ true rfl⟩
  · cases t <;> decide
  · cases t <;> decide

/-! ## The skips of the code are the markers of the design -/

theorem strchr_spec (c : Char) (hc : c ≠ NUL) : ∀ s : List Char, NUL ∈ s →
    strchr c s = some
      (if (s.dropWhile (fun y => decide (y ≠ c ∧ y ≠ NUL))).head? = some c
       then some (s.takeWhile (fun y => decide (y ≠ c ∧ y ≠ NUL))).length else none) := by
  intro s
  induction s with
  | nil => intro h; simp at h
  | cons x xs ih =>
    intro h
    by_cases hx : x = c
    · subst hx
      simp [strchr, List.takeWhile, List.dropWhile]
    · by_cases hn : x = NUL
      · subst hn
        simp [strchr, List.takeWhile, List.dropWhile, Ne.symm hc]
      · have hxs : NUL ∈ xs := by
          rcases List.mem_cons.1 h with h | h
          · exact absurd h.symm hn
          · exact h
        have hp : decide (x ≠ c ∧ x ≠ NUL) = true := by simp [hx, hn]
        simp only [strchr, hx, hn, if_false, ih hxs, List.takeWhile_cons, List.dropWhile_cons,
          hp, if_true, Option.map_some', List.length_cons]
        split <;> simp

theorem leadingMarker_pos (o c x : Char) (r : List Char) (hx : x = o)
    (hd : (r.dropWhile (fun y => decide (y ≠ c ∧ y ≠ NUL))).head? = some c) :
    leadingMarker o c (x :: r)
      = (r.takeWhile (fun y => decide (y ≠ c ∧ y ≠ NUL))).length + 2 := by
  exact if_pos ⟨hx, hd⟩

theorem leadingMarker_neg (o c x : Char) (r : List Char)
    (h : ¬ (x = o ∧ (r.dropWhile (fun y => decide (y ≠ c ∧ y ≠ NUL))).head? = some c)) :
    leadingMarker o c (x :: r) = 0 := by
  exact if_neg h

theorem leadingMarker_spec (o c : Char) (s : List Char) :
    (leadingMarker o c s ≠ 0 →
      ∃ inner rest, s = o :: (inner ++ c :: rest) ∧ c ∉ inner ∧ NUL ∉ inner ∧
        leadingMarker o c s = inner.length + 2) ∧
    (∀ inner rest, s = o :: (inner ++ c :: rest) → c ∉ inner → NUL ∉ inner →
      leadingMarker o c s = inner.length + 2) := by
  constructor
  · intro hne
    cases s with
    | nil => exact absurd rfl hne
    | cons x r =>
      by_cases h : x = o ∧ (r.dropWhile (fun y => decide (y ≠ c ∧ y ≠ NUL))).head? = some c
      · have hsplit := List.takeWhile_append_dropWhile (fun y => decide (y ≠ c ∧ y ≠ NUL)) r
        cases hd : r.dropWhile (fun y => decide (y ≠ c ∧ y ≠ NUL)) with
        | nil => rw [hd] at h; simp at h
        | cons a rest =>
          have ha : a = c := by
            have := h.2
            rw [hd] at this
            simpa using this
          rw [hd, ha] at hsplit
          have hin : ∀ y ∈ r.takeWhile (fun y => decide (y ≠ c ∧ y ≠ NUL)), y ≠ c ∧ y ≠ NUL := by
            intro y hy
            simpa using List.mem_takeWhile_imp hy
          refine ⟨r.takeWhile (fun y => decide (y ≠ c ∧ y ≠ NUL)), rest, ?_,
            fun hc => (hin c hc).1 rfl, fun hn => (hin NUL hn).2 rfl,
            leadingMarker_pos o c x r h.1 h.2⟩
          rw [h.1, hsplit]
      · exact absurd (leadingMarker_neg o c x r h) hne
  · intro inner rest hs hc hn
    subst hs
    have hp : ∀ y ∈ inner, (fun y => decide (y ≠ c ∧ y ≠ NUL)) y = true := by
      intro y hy
      have h1 : y ≠ c := fun e => hc (e ▸ hy)
      have h2 : y ≠ NUL := fun e => hn (e ▸ hy)
      simp [h1, h2]
    have htw : (inner ++ c :: rest).takeWhile (fun y => decide (y ≠ c ∧ y ≠ NUL)) = inner := by
      rw [List.takeWhile_append_of_pos hp]; simp [List.takeWhile]
    have hdw : (inner ++ c :: rest).dropWhile (fun y => decide (y ≠ c ∧ y ≠ NUL))
        = c :: rest := by
      rw [List.dropWhile_append_of_pos hp]; simp [List.dropWhile]
    rw [leadingMarker_pos o c o _ rfl (by rw [hdw]; rfl), htw]

theorem skipLevel_spec (s : List Char) (h : NUL ∈ s) :
    skipLevel s = some (leadingMarker '<' '>' s) := by
  cases s with
  | nil => simp at h
  | cons x r =>
    by_cases hx : x = '<'
    · subst hx
      have hp : decide (('<' : Char) ≠ '>' ∧ ('<' : Char) ≠ NUL) = true := by decide
      have hs := strchr_spec '>' (by decide) ('<' :: r) h
      simp only [List.takeWhile_cons, List.dropWhile_cons, hp, if_true,
        List.length_cons] at hs
      by_cases hd : (r.dropWhile (fun y => decide (y ≠ '>' ∧ y ≠ NUL))).head? = some '>'
      · rw [if_pos hd] at hs
        rw [leadingMarker_pos _ _ _ _ rfl hd]
        simp [skipLevel, hs]
      · rw [if_neg hd] at hs
        rw [leadingMarker_neg _ _ _ _ (fun h => hd h.2)]
        simp [skipLevel, hs]
    · rw [leadingMarker_neg _ _ _ _ (fun h => hx h.1)]
      simp [skipLevel, hx]

theorem skipTime_spec (s : List Char) (h : NUL ∈ s) :
    skipTime true s = some (leadingMarker '[' ']' s
      + (if leadingMarker '[' ']' s ≠ 0 ∧
          (s.drop (leadingMarker '[' ']' s)).head? = some ' ' then 1 else 0)) := by
  cases s with
  | nil => simp at h
  | cons x r =>
    by_cases hx : x = '['
    · subst hx
      have hp : decide (('[' : Char) ≠ ']' ∧ ('[' : Char) ≠ NUL) = true := by decide
      have hs := strchr_spec ']' (by decide) ('[' :: r) h
      simp only [List.takeWhile_cons, List.dropWhile_cons, hp, if_true,
        List.length_cons] at hs
      by_cases hd : (r.dropWhile (fun y => decide (y ≠ ']' ∧ y ≠ NUL))).head? = some ']'
      · rw [if_pos hd] at hs
        obtain ⟨r0, hr0, hk⟩ := strchr_total ']' (by decide) ('[' :: r) h
        rw [hs] at hr0
        have hk' := hk _ (Option.some.inj hr0).symm
        have hne : List.drop
            ((r.takeWhile (fun y => decide (y ≠ ']' ∧ y ≠ NUL))).length + 1 + 1) ('[' :: r)
            ≠ [] := by
          intro he; rw [he] at hk'; simp at hk'
        have hlt : (r.takeWhile (fun y => decide (y ≠ ']' ∧ y ≠ NUL))).length + 1 + 1
            < ('[' :: r).length := by
          by_contra hc
          exact hne (List.drop_eq_nil_of_le (by omega))
        have hget := List.getElem?_eq_getElem hlt
        have hlm : leadingMarker '[' ']' ('[' :: r)
            = (r.takeWhile (fun y => decide (y ≠ ']' ∧ y ≠ NUL))).length + 2 :=
          leadingMarker_pos _ _ _ _ rfl hd
        rw [hlm, List.head?_drop]
        simp only [skipTime, if_true, List.head?_cons, Option.bind_eq_bind, Option.some_bind,
          hs, hget, Option.pure_def]
        by_cases hsp : ('[' :: r)[(r.takeWhile
            (fun y => decide (y ≠ ']' ∧ y ≠ NUL))).length + 1 + 1] = ' '
        · simp [hsp, hget]
        · simp [hsp, hget]
      · rw [if_neg hd] at hs
        rw [leadingMarker_neg _ _ _ _ (fun h => hd h.2)]
        simp [skipTime, hs]
    · rw [leadingMarker_neg _ _ _ _ (fun h => hx h.1)]
      simp [skipTime, hx]

theorem skipMarkers_spec (t : Bool) (s : List Char) (h : NUL ∈ s) :
    skipMarkers t s = some (markerLen t s) := by
  obtain ⟨k1, e1, _, m1⟩ := skipLevel_total s h
  have e1' := skipLevel_spec s h
  rw [e1] at e1'
  have hk1 : k1 = leadingMarker '<' '>' s := Option.some.inj e1'
  subst hk1
  cases t with
  | false => simp [skipMarkers, e1, skipTime, markerLen]
  | true =>
    have e2 := skipTime_spec _ m1
    simp only [skipMarkers, e1, e2, Option.bind_eq_bind, Option.some_bind, Option.pure_def,
      markerLen, if_true, true_and, List.drop_drop, Nat.add_assoc]

theorem takeWhile_sentinel (c : Char) : ∀ r : List Char,
    (r ++ [NUL]).takeWhile (fun y => decide (y ≠ c ∧ y ≠ NUL))
      = r.takeWhile (fun y => decide (y ≠ c ∧ y ≠ NUL)) := by
  intro r
  induction r with
  | nil => simp [List.takeWhile]
  | cons x r ih =>
    simp only [List.cons_append, List.takeWhile_cons, ih]

theorem dropWhile_sentinel (c : Char) (hc : c ≠ NUL) : ∀ r : List Char,
    ((r ++ [NUL]).dropWhile (fun y => decide (y ≠ c ∧ y ≠ NUL))).head? = some c ↔
      (r.dropWhile (fun y => decide (y ≠ c ∧ y ≠ NUL))).head? = some c := by
  intro r
  induction r with
  | nil => simp [List.dropWhile, Ne.symm hc]
  | cons x r ih =>
    simp only [List.cons_append, List.dropWhile_cons]
    split
    · exact ih
    · simp

theorem leadingMarker_sentinel (o c : Char) (ho : o ≠ NUL) (hc : c ≠ NUL) (s : List Char) :
    leadingMarker o c (s ++ [NUL]) = leadingMarker o c s := by
  cases s with
  | nil => exact leadingMarker_neg o c NUL [] (fun h => ho h.1.symm)
  | cons x r =>
    by_cases h : x = o ∧ (r.dropWhile (fun y => decide (y ≠ c ∧ y ≠ NUL))).head? = some c
    · rw [List.cons_append,
        leadingMarker_pos o c x _ h.1 ((dropWhile_sentinel c hc r).2 h.2),
        leadingMarker_pos o c x r h.1 h.2, takeWhile_sentinel]
    · rw [List.cons_append,
        leadingMarker_neg o c x _ (fun h' => h ⟨h'.1, (dropWhile_sentinel c hc r).1 h'.2⟩),
        leadingMarker_neg o c x r h]

theorem leadingMarker_le (o c : Char) (s : List Char) : leadingMarker o c s ≤ s.length := by
  cases s with
  | nil => exact Nat.le_refl 0
  | cons x r =>
    by_cases h : x = o ∧ (r.dropWhile (fun y => decide (y ≠ c ∧ y ≠ NUL))).head? = some c
    · rw [leadingMarker_pos o c x r h.1 h.2]
      have hsplit := congrArg List.length
        (List.takeWhile_append_dropWhile (fun y => decide (y ≠ c ∧ y ≠ NUL)) r)
      have hne : 0 < (r.dropWhile (fun y => decide (y ≠ c ∧ y ≠ NUL))).length := by
        cases hd : r.dropWhile (fun y => decide (y ≠ c ∧ y ≠ NUL)) with
        | nil => rw [hd] at h; simp at h
        | cons a b => simp
      simp only [List.length_append] at hsplit
      simp only [List.length_cons]
      omega
    · rw [leadingMarker_neg o c x r h]; omega

theorem head_sentinel (l : List Char) : (l ++ [NUL]).head? = some ' ' ↔ l.head? = some ' ' := by
  cases l with
  | nil => simp; decide
  | cons a b => simp

theorem markerLen_le (t : Bool) (s : List Char) : markerLen t s ≤ s.length := by
  have h1 := leadingMarker_le '<' '>' s
  have h2 := leadingMarker_le '[' ']' (s.drop (leadingMarker '<' '>' s))
  simp only [List.length_drop] at h2
  unfold markerLen
  have h3 : (if t = true ∧ leadingMarker '[' ']' (s.drop (leadingMarker '<' '>' s)) ≠ 0 ∧
      (s.drop (leadingMarker '<' '>' s
        + leadingMarker '[' ']' (s.drop (leadingMarker '<' '>' s)))).head? = some ' '
      then 1 else 0) + (leadingMarker '<' '>' s
        + leadingMarker '[' ']' (s.drop (leadingMarker '<' '>' s))) ≤ s.length := by
    split
    · rename_i h
      have hne : s.drop (leadingMarker '<' '>' s
          + leadingMarker '[' ']' (s.drop (leadingMarker '<' '>' s))) ≠ [] := by
        intro he; rw [he] at h; simp at h
      have := mt List.drop_eq_nil_iff.2 hne
      omega
    · omega
  cases t with
  | false => simp only [Bool.false_eq_true, if_false, false_and] at h3 ⊢; omega
  | true => simp only [if_true, true_and] at h3 ⊢; omega

theorem markerLen_sentinel (t : Bool) (s : List Char) :
    markerLen t (s ++ [NUL]) = markerLen t s := by
  have h1 := leadingMarker_le '<' '>' s
  have h2 := leadingMarker_le '[' ']' (s.drop (leadingMarker '<' '>' s))
  simp only [List.length_drop] at h2
  have e1 := leadingMarker_sentinel '<' '>' (by decide) (by decide) s
  have e2 := leadingMarker_sentinel '[' ']' (by decide) (by decide)
    (s.drop (leadingMarker '<' '>' s))
  unfold markerLen
  rw [e1, List.drop_append_of_le_length h1, e2, List.drop_append_of_le_length (by omega)]
  simp only [head_sentinel]

theorem filterL_strip (t : Bool) : ∀ (n : Nat) (s : List Char) (ls : Bool), s.length ≤ n →
    filterL t ls (s ++ [NUL]) = stripFrom t n ls s ∨
      filterL t ls (s ++ [NUL]) = stripFrom t n ls s ++ [NUL] := by
  intro n
  induction n with
  | zero =>
    intro s ls hn
    have hs : s = [] := List.length_eq_zero.1 (by omega)
    subst hs
    exact Or.inl (filterL_done t ls _ (by simp))
  | succ n ih =>
    intro s ls hn
    have hk : (if ls then (skipMarkers t (s ++ [NUL])).getD 0 else 0)
        = (if ls then markerLen t s else 0) := by
      cases ls with
      | false => rfl
      | true => simp [skipMarkers_spec t (s ++ [NUL]) (by simp), markerLen_sentinel]
    have hle : (if ls then markerLen t s else 0) ≤ s.length := by
      cases ls with
      | false => simp
      | true => simpa using markerLen_le t s
    have hdrop : (s ++ [NUL]).drop (if ls then (skipMarkers t (s ++ [NUL])).getD 0 else 0)
        = s.drop (if ls then markerLen t s else 0) ++ [NUL] := by
      rw [hk, List.drop_append_of_le_length hle]
    by_cases hnil : s = []
    · subst hnil
      refine Or.inl ?_
      rw [filterL_done t ls _ (by simp)]
      simp [stripFrom]
    · have hlen : 1 < (s ++ [NUL]).length := by
        have := List.length_pos.2 hnil
        simp only [List.length_append, List.length_singleton]
        omega
      cases hd : s.drop (if ls then markerLen t s else 0) with
      | nil =>
        refine Or.inr ?_
        rw [hd] at hdrop
        rw [filterL_step t ls _ [] NUL hlen hdrop, filterL_done t _ [] (by simp)]
        simp [stripFrom, hd]
      | cons c s' =>
        rw [hd] at hdrop
        have hs' : s'.length ≤ n := by
          have := congrArg List.length hd
          simp only [List.length_drop, List.length_cons] at this
          omega
        rw [filterL_step t ls _ (s' ++ [NUL]) c hlen hdrop]
        have hstrip : stripFrom t (n + 1) ls s = c :: stripFrom t n (decide (c = '\n')) s' := by
          simp [stripFrom, hd]
        rw [hstrip]
        rcases ih s' (decide (c = '\n')) hs' with h | h
        · exact Or.inl (by rw [h])
        · exact Or.inr (by rw [h, List.cons_append])

theorem count_strip_skipped (t : Bool) (x : Char) : ∀ (n : Nat) (s : List Char) (ls : Bool),
    s.length ≤ n →
      (stripFrom t n ls s).count x + (skippedFrom t n ls s).count x = s.count x := by
  intro n
  induction n with
  | zero =>
    intro s ls hn
    have hs : s = [] := List.length_eq_zero.1 (by omega)
    subst hs
    simp [stripFrom, skippedFrom]
  | succ n ih =>
    intro s ls hn
    have hsplit := congrArg (List.count x)
      (List.take_append_drop (if ls then markerLen t s else 0) s)
    cases hd : s.drop (if ls then markerLen t s else 0) with
    | nil =>
      rw [hd] at hsplit
      simp only [stripFrom, skippedFrom, hd, List.count_append, List.count_nil] at hsplit ⊢
      omega
    | cons c s' =>
      have hs' : s'.length ≤ n := by
        have := congrArg List.length hd
        simp only [List.length_drop, List.length_cons] at this
        omega
      have hrec := ih s' (decide (c = '\n')) hs'
      rw [hd] at hsplit
      simp only [stripFrom, skippedFrom, hd, List.count_append, List.count_cons] at hsplit hrec ⊢
      omega

/-- C17 (amended): the filter and line breaks.  For every buffer and either
suppressTimestamp setting, the filtered output is the buffer without its leading markers
(`stripMarkers`: at the start of the buffer and after every newline kept, a `<`..`>` marker
and, with suppressTimestamp, a `[`..`]` marker and one space are left out, the closing
byte being the next one before a NUL, on the same line or a later one), at most followed
by the sentinel.  Every byte of the buffer is kept or belongs to such a marker, so the
newline bytes of the input are those of the output and those inside the markers: the
output never has more newlines than the input, and has as many when no marker holds a
newline. -/
theorem legacy_filter_newlines (t : Bool) (bytes : List Char) :
    ∃ st, legacy_filter false t bytes = some st ∧
      (st.result = stripMarkers t bytes ∨ st.result = stripMarkers t bytes ++ [NUL]) ∧
      (∀ x, (stripMarkers t bytes).count x + (skippedMarkers t bytes).count x
        = bytes.count x) ∧
      st.result.count '\n' + (skippedMarkers t bytes).count '\n' = bytes.count '\n' ∧
      st.result.count '\n' ≤ bytes.count '\n' ∧
      ('\n' ∉ skippedMarkers t bytes → st.result.count '\n' = bytes.count '\n') := by
  obtain ⟨st, h1, h2, _⟩ := legacy_filter_eq t bytes
  have hres := filterL_strip t bytes.length bytes true (Nat.le_refl _)
  rw [← h2] at hres
  have hcount : ∀ x, (stripMarkers t bytes).count x + (skippedMarkers t bytes).count x
      = bytes.count x :=
    fun x => count_strip_skipped t x bytes.length bytes true (Nat.le_refl _)
  have hnl : st.result.count '\n' = (stripMarkers t bytes).count '\n' := by
    rcases hres with h | h
    · rw [h]; rfl
    · have : List.count '\n' [NUL] = 0 := by decide
      rw [h, List.count_append, this]; rfl
  have hc := hcount '\n'
  refine ⟨st, h1, hres, hcount, by omega, by omega, ?_⟩
  intro hno
  rw [List.count_eq_zero_of_not_mem hno] at hc
  omega

/-- C17 as stated fails at the buffer `<a\nb>x\n`: the marker `<a\nb>` is skipped with the
newline inside it, so the input has two newline bytes and the output `x\n` has one. -/
theorem legacy_filter_drops_newline :
    (legacy_filter false false "<a\nb>x\n".toList).map Buf.result = some "x\n".toList ∧
    "<a\nb>x\n".toList.count '\n' = 2 ∧ "x\n".toList.count '\n' = 1 ∧
    (legacy_filter false true "<a\nb>x\n".toList).map Buf.result = some "x\n".toList ∧
    stripMarkers false "<a\nb>x\n".toList = "x\n".toList ∧
    skippedMarkers false "<a\nb>x\n".toList = "<a\nb>".toList := by
  decide

/-- C19: index safety and termination of the filter loop.  For every buffer of `size`
bytes in an allocation of `size + 1` bytes with the sentinel at index `size`, and either
suppressTimestamp setting: after any number of iterations the loop has made no access
outside the allocation (the model would have returned `none`), the write index is at
most the read index and at most `size`, and the next iteration, if there is one, reads
its byte at an index up to `size`; after at most `size` iterations the loop condition is
false; the output has at most `size` bytes and the read of the byte before `to` in line
67 is inside the buffer.  The buffer `<1>` is the case of a marker that ends at the end
of the buffer. -/
theorem legacy_filter_index_safety (t : Bool) (bytes : List Char) :
    (∀ n, ∃ st, legacy_loop t bytes.length n ⟨bytes ++ [NUL], 0, 0⟩ = some st ∧
      st.data.length = bytes.length + 1 ∧ st.to_ ≤ st.from_ ∧ st.to_ ≤ bytes.length ∧
      st.from_ ≤ bytes.length + 1 ∧
      (st.from_ < bytes.length → ∃ k c, st.from_ + k ≤ bytes.length ∧
        st.data[st.from_ + k]? = some c ∧
        legacy_step t st = some ⟨st.data.set st.to_ c, st.to_ + 1, st.from_ + k + 1⟩)) ∧
    (∃ st w, legacy_loop t bytes.length bytes.length ⟨bytes ++ [NUL], 0, 0⟩ = some st ∧
      bytes.length ≤ st.from_ ∧ st.result.length ≤ bytes.length ∧
      (st.to_ ≠ 0 → st.to_ - 1 < st.data.length) ∧ legacy_write st = some w) ∧
    legacy_loop t 3 3 ⟨"<1>".toList ++ [NUL], 0, 0⟩ = some ⟨[NUL, '1', '>', NUL], 1, 4⟩ := by
  refine ⟨?_, ?_, by cases t <;> decide⟩
  · intro n
    obtain ⟨st, h1, h2, h3, h4, h5, h6⟩ :=
      legacy_loop_inv t bytes.length n ⟨bytes ++ [NUL], 0, 0⟩
        (by simp) (by simp) (by simp) (by simp) (by simp)
    refine ⟨st, h1, h2, h4, h5, h6, ?_⟩
    intro hlt
    obtain ⟨k, c, _, hk, hc, hstep⟩ := legacy_step_spec t bytes.length st h2 h3 h4 hlt
    exact ⟨k, c, hk, hc, hstep⟩
  · obtain ⟨st, h1, _, h3, h4, h5, h6, h7, _⟩ := legacy_filter_eq t bytes
    have hloop : legacy_loop t bytes.length bytes.length ⟨bytes ++ [NUL], 0, 0⟩ = some st := by
      simpa [legacy_filter] using h1
    refine ⟨st, terminated st.result, hloop, h5, ?_, fun _ => by omega,
      legacy_write_eq st (by omega)⟩
    simp only [Buf.result, List.length_take]
    omega

end Dmesg
